import Mathlib

/-!
# memory_cache-go: a shallow embedding of `cache.go`

The package keeps a table from string keys to entries (a payload and an
absolute expiry in nanoseconds), a byte budget `totalMemory`, a counter
`usedMemory` and an embedded pointer to a reader/writer lock.

Conventions of the embedding:

* Go strings are Lean strings, read as their sequence of characters. The unit
  names and the digits are ASCII, so searching for them by character or by
  byte is the same thing on text that is valid UTF-8.
* `int`, `int64` and `time.Duration` are `Int`; every place where the Go code
  can overflow reduces the result with `toInt64` (64-bit two's complement,
  `int` being 64 bits wide).
* `interface{}` payloads are `Option V`: `none` is the nil interface.
* The clock is an argument: `now` is what `time.Now().UnixNano()` reads when
  the operation runs.
* A method that mutates its receiver returns the new receiver next to its
  result. A call that cannot return (a nil pointer dereference, a lock that
  is held, a fatal runtime error) is an `Except.error`.
* `for k, v := range memoryUnits` visits the three units in an order Go does
  not fix; the order is an argument, constrained by `Perm` in the theorems.
-/

set_option linter.dupNamespace false

namespace MemoryCache

/-! ## Constants -/

/-- Bytes in a kilobyte: `KB = 1024`. -/
def KB : Int := 1024

/-- Bytes in a megabyte: `MB = 1024 * KB`. -/
def MB : Int := 1024 * KB

/-- Bytes in a gigabyte: `GB = 1024 * MB`. -/
def GB : Int := 1024 * MB

/-- The unit table `memoryUnits`, as the list of its three bindings. -/
def memoryUnits : List (String × Int) := [("KB", KB), ("MB", MB), ("GB", GB)]

/-- The constant `DefaultExpiration`. -/
def DefaultExpiration : Int := 0

/-- The value of the package: the only error `New` reports. -/
inductive GoError where
  | ErrParameterOfSetMaxMemory
  deriving DecidableEq, Repr

/-! ## Machine integers -/

/-- Reduction of an integer to the signed 64-bit value Go computes. -/
def toInt64 (x : Int) : Int := (x + 2 ^ 63) % 2 ^ 64 - 2 ^ 63

/-! ## The library functions the package calls -/

/-- Go's `strings.HasSuffix`: `len(s) >= len(suffix)` and the tail of `s` of
that length equals `suffix`. -/
def HasSuffix (s suffix : String) : Bool :=
  decide (suffix.length ≤ s.length) &&
    (s.data.drop (s.length - suffix.length) == suffix.data)

/-- Worker of `Split` for a non-empty separator: `cur` holds the piece being
read, reversed, and `skip` counts the characters of a separator just matched
that are still to be passed over. -/
def splitGo (sep : List Char) : List Char → List Char → Nat → List (List Char)
  | [], cur, _ => [cur.reverse]
  | _ :: cs, cur, skip + 1 => splitGo sep cs cur skip
  | c :: cs, cur, 0 =>
    if sep.isPrefixOf (c :: cs) then cur.reverse :: splitGo sep cs [] (sep.length - 1)
    else splitGo sep cs (c :: cur) 0

/-- Go's `strings.Split(s, sep)` for a non-empty `sep`: the pieces of `s`
between the successive, non-overlapping occurrences of `sep`, read from the
left. (With an empty `sep` Go splits after every character; the package never
passes one and the model returns `s` whole.) -/
def Split (s sep : String) : List String :=
  if sep.data = [] then [s] else (splitGo sep.data s.data [] 0).map String.mk

/-- The value of a decimal digit, `none` for any other character. -/
def digitVal (c : Char) : Option Nat :=
  if '0' ≤ c ∧ c ≤ '9' then some (c.toNat - '0'.toNat) else none

/-- Reads a run of decimal digits, most significant first, onto `acc`. -/
def parseDigits : List Char → Nat → Option Nat
  | [], acc => some acc
  | c :: cs, acc =>
    match digitVal c with
    | none => none
    | some d => parseDigits cs (10 * acc + d)

/-- Go's `strconv.Atoi` on a 64-bit platform: an optional `+` or `-`, then at
least one decimal digit and nothing else; the value has to lie in
`[-2^63, 2^63 - 1]`. `none` stands for a non-nil `err`. -/
def Atoi (s : String) : Option Int :=
  let signed : Bool × List Char :=
    match s.data with
    | '-' :: rest => (true, rest)
    | '+' :: rest => (false, rest)
    | rest => (false, rest)
  if signed.2 = [] then none
  else
    match parseDigits signed.2 0 with
    | none => none
    | some n =>
      if signed.1 then (if 2 ^ 63 < n then none else some (-(n : Int)))
      else (if 2 ^ 63 ≤ n then none else some (n : Int))

/-! ## The data model -/

/-- The struct `value`: a payload and its expiry, `0` meaning never. -/
structure value (V : Type) where
  value : Option V
  expire : Int
  deriving DecidableEq

/-- The state of a `sync.RWMutex` as far as a caller can tell: whether a
writer holds it and how many readers do. -/
structure RWMutex where
  w : Bool
  readerCount : Nat
  deriving DecidableEq, Repr

/-- Why a call does not return. -/
inductive Fault where
  /-- A method was called through a nil pointer. -/
  | nilDereference
  /-- The lock is held in a mode that keeps the caller waiting. -/
  | blocked
  /-- The runtime aborts: unlocking a lock that is not locked. -/
  | fatal
  deriving DecidableEq, Repr

/-- The struct `cache`. `RWMutex` is the embedded `*sync.RWMutex`: `none` is
the nil pointer, `some m` a lock in state `m`. -/
structure cache (V : Type) where
  defaultExpiration : Int
  totalMemory : Int
  usedMemory : Int
  _data : Finmap (fun _ : String => value V)
  RWMutex : Option RWMutex

/-- The struct `Cache`, which embeds a `*cache`: `none` is the nil pointer of
the value `&Cache{}`. -/
structure Cache (V : Type) where
  cache : Option (cache V)

/-! ## The lock, reached through the embedded pointer -/

/-- The promoted method `c.Lock()`. -/
def Lock {V : Type} (c : cache V) : Except Fault (cache V) :=
  match c.RWMutex with
  | none => .error .nilDereference
  | some m =>
    if m.w || m.readerCount != 0 then .error .blocked
    else .ok { c with RWMutex := some { m with w := true } }

/-- The promoted method `c.Unlock()`. -/
def Unlock {V : Type} (c : cache V) : Except Fault (cache V) :=
  match c.RWMutex with
  | none => .error .nilDereference
  | some m =>
    if m.w then .ok { c with RWMutex := some { m with w := false } }
    else .error .fatal

/-- The promoted method `c.RLock()`: a reader waits only for a writer. -/
def RLock {V : Type} (c : cache V) : Except Fault (cache V) :=
  match c.RWMutex with
  | none => .error .nilDereference
  | some m =>
    if m.w then .error .blocked
    else .ok { c with RWMutex := some { m with readerCount := m.readerCount + 1 } }

/-- The promoted method `c.RUnlock()`. -/
def RUnlock {V : Type} (c : cache V) : Except Fault (cache V) :=
  match c.RWMutex with
  | none => .error .nilDereference
  | some m =>
    if m.readerCount = 0 then .error .fatal
    else .ok { c with RWMutex := some { m with readerCount := m.readerCount - 1 } }

/-! ## The operations -/

/-- The body of the loop of `SetMaxMemory` over the units in the order
`units`: a unit that is a suffix of `size` has the text before its first
occurrence parsed; a parse error returns `false` at once, a number is scaled
by the unit and stored, and the loop goes on. -/
def SetMaxMemoryLoop {V : Type} (size : String) :
    List (String × Int) → cache V → Bool × cache V
  | [], c => (true, c)
  | (k, v) :: rest, c =>
    if HasSuffix size k then
      match Atoi ((Split size k).headD "") with
      | none => (false, c)
      | some i => SetMaxMemoryLoop size rest { c with totalMemory := toInt64 (i * v) }
    else SetMaxMemoryLoop size rest c

/-- The method `SetMaxMemory`, with the order `order` in which `range` visits
`memoryUnits`. -/
def SetMaxMemory {V : Type} (order : List (String × Int)) (c : cache V) (size : String) :
    Bool × cache V :=
  SetMaxMemoryLoop size order c

/-- The function `New`: a cache with the default budget of one gigabyte, an
empty table and no lock, resized by `SetMaxMemory`. -/
def New {V : Type} (order : List (String × Int)) (size : String) : Cache V × Option GoError :=
  let c : cache V :=
    { defaultExpiration := 0, totalMemory := GB, usedMemory := 0, _data := ∅, RWMutex := none }
  let r := SetMaxMemory order c size
  if r.1 == false then (⟨none⟩, some .ErrParameterOfSetMaxMemory)
  else (⟨some r.2⟩, none)

/-- The function `getBytesLen`: the length of the gob encoding of `key`, or
the encoder's error. The encoder `gob` is the library's (`none` is an error,
`some buf` the bytes written to the buffer). -/
def getBytesLen {V : Type} (gob : Option V → Option (List Nat)) (key : Option V) : Option Nat :=
  match gob key with
  | none => none
  | some buf => some buf.length

/-- The method `Set`, run when the clock reads `now`. -/
def Set {V : Type} (gob : Option V → Option (List Nat)) (now : Int) (c : cache V)
    (key : String) (val : Option V) (expire : Int) : Except Fault (cache V) :=
  let e : Int := if expire > 0 then toInt64 (now + expire) else 0
  match getBytesLen gob val with
  | none => .ok c
  | some size =>
    let used := toInt64 (c.usedMemory + (size : Int))
    if used > c.totalMemory then .ok c
    else do
      let c1 ← Lock c
      let c2 := { c1 with _data := c1._data.insert key { value := val, expire := e } }
      Unlock c2

/-- The method `Del`. The deferred `RUnlock` runs last. -/
def Del {V : Type} (c : cache V) (key : String) : Except Fault (Bool × cache V) := do
  let c1 ← RLock c
  match c1._data.lookup key with
  | none =>
    let c2 ← RUnlock c1
    pure (false, c2)
  | some _ =>
    let c2 ← RUnlock { c1 with _data := c1._data.erase key }
    pure (true, c2)

/-- The method `Get`, run when the clock reads `now`: the results `data` and
`ok`, and the receiver afterwards. -/
def Get {V : Type} (now : Int) (c : cache V) (key : String) :
    Except Fault ((Option V × Bool) × cache V) := do
  let c1 ← RLock c
  match c1._data.lookup key with
  | none =>
    let c2 ← RUnlock c1
    pure ((none, false), c2)
  | some d =>
    if d.expire == 0 || now < d.expire then
      let c2 ← RUnlock c1
      pure ((d.value, true), c2)
    else
      let r ← Del c1 key
      let c3 ← RUnlock r.2
      pure ((none, r.1), c3)

/-- The method `Exists`. -/
def Exists {V : Type} (c : cache V) (key : String) : Except Fault (Bool × cache V) := do
  let c1 ← RLock c
  let ok := (c1._data.lookup key).isSome
  let c2 ← RUnlock c1
  pure (ok, c2)

/-- The method `Flush`. -/
def Flush {V : Type} (c : cache V) : Except Fault (Bool × cache V) := do
  let c1 ← RLock c
  let c2 ← RUnlock { c1 with _data := ∅ }
  pure (true, c2)

/-- The method `Keys`: one count per entry of the table, in 64 bits. -/
def Keys {V : Type} (c : cache V) : Int :=
  toInt64 (c._data.keys.card : Int)

/-! ## Runs of the engine -/

/-- One call of a method that returns, with the engine before and after it.
The calls are those of the interface; `Keys` writes nothing. -/
inductive Step {V : Type} (gob : Option V → Option (List Nat)) : cache V → cache V → Prop where
  | setMaxMemory (c : cache V) (order : List (String × Int)) (size : String) :
      order.Perm memoryUnits → Step gob c (SetMaxMemory order c size).2
  | set (c c' : cache V) (now : Int) (key : String) (val : Option V) (expire : Int) :
      Set gob now c key val expire = .ok c' → Step gob c c'
  | get (c c' : cache V) (now : Int) (key : String) (r : Option V × Bool) :
      Get now c key = .ok (r, c') → Step gob c c'
  | del (c c' : cache V) (key : String) (b : Bool) :
      Del c key = .ok (b, c') → Step gob c c'
  | probe (c c' : cache V) (key : String) (b : Bool) :
      Exists c key = .ok (b, c') → Step gob c c'
  | flush (c c' : cache V) (b : Bool) :
      Flush c = .ok (b, c') → Step gob c c'
  | keys (c : cache V) : Step gob c c

/-- The engines a caller of the package can hold: the one a successful `New`
returns, and what calls that return make of it. -/
inductive Reachable {V : Type} (gob : Option V → Option (List Nat)) : cache V → Prop where
  | new (order : List (String × Int)) (size : String) (c : cache V) :
      order.Perm memoryUnits → New order size = (⟨some c⟩, none) → Reachable gob c
  | step (c c' : cache V) : Reachable gob c → Step gob c c' → Reachable gob c'

/-! ## Values for the examples -/

/-- An encoder that stands in for `encoding/gob`, whose output is not
modelled, in the examples: the nil interface is refused and a string is
written as one byte per character. -/
def byteEncoder : Option String → Option (List Nat)
  | none => none
  | some s => some (s.data.map Char.toNat)

/-- An engine with no usage, the budget `total`, the table `data` and an
allocated lock that nobody holds. -/
def unlockedEngine (total : Int) (data : Finmap (fun _ : String => value String)) :
    cache String :=
  { defaultExpiration := 0, totalMemory := total, usedMemory := 0, _data := data,
    RWMutex := some ⟨false, 0⟩ }

/-- The engine `New` builds for the budget `total`: an empty table and a nil
lock pointer. -/
def freshEngine (total : Int) : cache String :=
  { defaultExpiration := 0, totalMemory := total, usedMemory := 0, _data := ∅, RWMutex := none }

/-! # Theorems -/

variable {V : Type}

/-! ## Decimal text -/

theorem digitVal_digitChar (d : Nat) (h : d < 10) : digitVal (Nat.digitChar d) = some d := by
  interval_cases d <;> decide

theorem toDigitsCore_spec (fuel : Nat) : ∀ (n : Nat) (ds : List Char), n < fuel →
    ∃ l : List Char, Nat.toDigitsCore 10 fuel n ds = l ++ ds ∧ l ≠ [] ∧
      (∀ c ∈ l, digitVal c ≠ none) ∧
      ∀ (acc : Nat) (rest : List Char),
        parseDigits (l ++ rest) acc = parseDigits rest (acc * 10 ^ l.length + n) := by
  induction fuel with
  | zero => intro n ds h; omega
  | succ fuel ih =>
    intro n ds h
    have hd : digitVal (Nat.digitChar (n % 10)) = some (n % 10) :=
      digitVal_digitChar _ (Nat.mod_lt _ (by decide))
    by_cases h0 : n / 10 = 0
    · refine ⟨[Nat.digitChar (n % 10)], ?_, by simp, ?_, ?_⟩
      · simp [Nat.toDigitsCore, h0]
      · intro c hc
        simp only [List.mem_singleton] at hc
        subst hc
        simp [hd]
      · intro acc rest
        have hn : n % 10 = n := by omega
        simp only [List.singleton_append, parseDigits, hd, List.length_singleton, pow_one]
        congr 1
        omega
    · have hlt : n / 10 < fuel := by omega
      obtain ⟨l, hl, hne, hdig, hval⟩ := ih (n / 10) (Nat.digitChar (n % 10) :: ds) hlt
      refine ⟨l ++ [Nat.digitChar (n % 10)], ?_, by simp, ?_, ?_⟩
      · simp [Nat.toDigitsCore, h0, hl]
      · intro c hc
        rcases List.mem_append.1 hc with hc | hc
        · exact hdig c hc
        · simp only [List.mem_singleton] at hc
          subst hc
          simp [hd]
      · intro acc rest
        rw [List.append_assoc, hval]
        simp only [List.singleton_append, parseDigits, hd, List.length_append,
          List.length_singleton, pow_succ]
        congr 1
        nlinarith [Nat.div_add_mod n 10]

/-- The decimal text of `n` is a non-empty run of digits that reads back as `n`. -/
theorem toString_nat_data (n : Nat) :
    (toString n).data ≠ [] ∧ (∀ c ∈ (toString n).data, digitVal c ≠ none) ∧
      parseDigits (toString n).data 0 = some n := by
  obtain ⟨l, hl, hne, hdig, hval⟩ := toDigitsCore_spec (n + 1) n [] (Nat.lt_succ_self n)
  have hdata : (toString n).data = l := by
    show (Nat.repr n).data = l
    simp [Nat.repr, Nat.toDigits, hl, List.asString]
  rw [hdata]
  refine ⟨hne, hdig, ?_⟩
  have := hval 0 []
  simpa [parseDigits] using this

/-- On a non-empty run of digits `Atoi` returns the number read, unless it
needs more than 63 bits. -/
theorem Atoi_of_digits (s : String) (n : Nat) (hne : s.data ≠ [])
    (hdig : ∀ c ∈ s.data, digitVal c ≠ none) (hval : parseDigits s.data 0 = some n) :
    Atoi s = if 2 ^ 63 ≤ n then none else some (n : Int) := by
  unfold Atoi
  split
  · next rest h =>
    exact absurd (hdig '-' (by simp [h])) (by simp; decide)
  · next rest h =>
    exact absurd (hdig '+' (by simp [h])) (by simp; decide)
  · simp [hne, hval]

theorem Atoi_toString (n : Nat) (hn : n < 2 ^ 63) : Atoi (toString n) = some (n : Int) := by
  obtain ⟨hne, hdig, hval⟩ := toString_nat_data n
  rw [Atoi_of_digits _ n hne hdig hval, if_neg (by omega)]

theorem parseDigits_digits : ∀ (l : List Char) (acc n : Nat), parseDigits l acc = some n →
    ∀ c ∈ l, digitVal c ≠ none := by
  intro l
  induction l with
  | nil => intro acc n _ c hc; simp at hc
  | cons a l ih =>
    intro acc n h c hc
    cases hd : digitVal a with
    | none => simp [parseDigits, hd] at h
    | some d =>
      simp only [parseDigits, hd] at h
      rcases List.mem_cons.1 hc with e | e
      · subst e
        simp [hd]
      · exact ih _ n h c e

/-- A text `Atoi` accepts holds digits and, at most, a sign. -/
theorem Atoi_chars (s : String) (i : Int) (h : Atoi s = some i) :
    ∀ c ∈ s.data, digitVal c ≠ none ∨ c = '-' ∨ c = '+' := by
  have key : ∀ rest : List Char, (parseDigits rest 0).isSome → ∀ c ∈ rest, digitVal c ≠ none := by
    intro rest hr c hc
    obtain ⟨n, hn⟩ := Option.isSome_iff_exists.1 hr
    exact parseDigits_digits rest 0 n hn c hc
  unfold Atoi at h
  split at h
  · next rest hs =>
    intro c hc
    rw [hs] at hc
    rcases List.mem_cons.1 hc with e | e
    · exact Or.inr (Or.inl e)
    · refine Or.inl (key rest ?_ c e)
      simp only at h
      split at h
      · simp at h
      · cases hp : parseDigits rest 0 with
        | none => simp [hp] at h
        | some n => simp
  · next rest hs =>
    intro c hc
    rw [hs] at hc
    rcases List.mem_cons.1 hc with e | e
    · exact Or.inr (Or.inr e)
    · refine Or.inl (key rest ?_ c e)
      simp only at h
      split at h
      · simp at h
      · cases hp : parseDigits rest 0 with
        | none => simp [hp] at h
        | some n => simp
  · intro c hc
    refine Or.inl (key s.data ?_ c hc)
    simp only at h
    split at h
    · simp at h
    · cases hp : parseDigits s.data 0 with
      | none => simp [hp] at h
      | some n => simp

/-- The decimal text of an integer that fits 64 bits reads back as itself. -/
theorem Atoi_toString_int (n : Int) (hlo : -2 ^ 63 ≤ n) (hhi : n < 2 ^ 63) :
    Atoi (toString n) = some n := by
  cases n with
  | ofNat m =>
    show Atoi (toString m) = some (Int.ofNat m)
    have hm : m < 2 ^ 63 := by
      have : (m : Int) < 2 ^ 63 := hhi
      omega
    exact Atoi_toString m hm
  | negSucc m =>
    obtain ⟨hne, _, hval⟩ := toString_nat_data (m + 1)
    have hdata : (toString (Int.negSucc m)).data = '-' :: (toString (m + 1)).data := by
      show ("-" ++ toString (Nat.succ m)).data = _
      rw [String.data_append]
      rfl
    have hm : ¬ 2 ^ 63 < m + 1 := by
      have : -2 ^ 63 ≤ Int.negSucc m := hlo
      rw [Int.negSucc_eq] at this
      omega
    unfold Atoi
    rw [hdata]
    simp only [hne, if_false, hval, hm, ite_true]
    rw [Int.negSucc_eq]
    simp

/-! ## Suffixes and pieces -/

theorem HasSuffix_append (p k : String) : HasSuffix (p ++ k) k = true := by
  have h1 : (p ++ k).length = p.data.length + k.data.length := String.length_append p k
  have h2 : k.length = k.data.length := rfl
  simp only [HasSuffix, h1, h2, String.data_append, Bool.and_eq_true, decide_eq_true_eq,
    beq_iff_eq]
  refine ⟨by omega, ?_⟩
  rw [Nat.add_sub_cancel]
  exact List.drop_left p.data k.data

/-- A string with the suffix `k` ends in exactly the characters of `k`. -/
theorem HasSuffix_drop (s k : String) (h : HasSuffix s k = true) :
    s.data.drop (s.length - k.length) = k.data := by
  simp only [HasSuffix, Bool.and_eq_true, decide_eq_true_eq, beq_iff_eq] at h
  exact h.2

theorem mem_memoryUnits (p : String × Int) (hp : p ∈ memoryUnits) :
    p = ("KB", KB) ∨ p = ("MB", MB) ∨ p = ("GB", GB) := by
  simpa [memoryUnits] using hp

theorem unit_length (p : String × Int) (hp : p ∈ memoryUnits) : p.1.length = 2 := by
  rcases mem_memoryUnits p hp with rfl | rfl | rfl <;> rfl

theorem unit_value_of_name (p q : String × Int) (hp : p ∈ memoryUnits) (hq : q ∈ memoryUnits)
    (h : p.1 = q.1) : p = q := by
  rcases mem_memoryUnits p hp with rfl | rfl | rfl <;>
    rcases mem_memoryUnits q hq with rfl | rfl | rfl <;>
    first | rfl | exact absurd h (by decide)

/-- At most one unit is a suffix of a given string. -/
theorem unit_suffix_unique (size : String) (p q : String × Int) (hp : p ∈ memoryUnits)
    (hq : q ∈ memoryUnits) (h1 : HasSuffix size p.1 = true) (h2 : HasSuffix size q.1 = true) :
    p = q := by
  have e1 := HasSuffix_drop _ _ h1
  have e2 := HasSuffix_drop _ _ h2
  rw [unit_length p hp] at e1
  rw [unit_length q hq] at e2
  exact unit_value_of_name p q hp hq (String.ext (e1.symm.trans e2))

theorem splitGo_head (a : Char) (t rest : List Char) :
    ∀ (p cur : List Char), (∀ c ∈ p, c ≠ a) →
      (splitGo (a :: t) (p ++ (a :: t) ++ rest) cur 0).head? = some (cur.reverse ++ p) := by
  intro p
  induction p with
  | nil =>
    intro cur _
    have hpre : (a :: t).isPrefixOf (a :: (t ++ rest)) = true := by
      rw [List.isPrefixOf_iff_prefix]
      exact ⟨rest, by simp⟩
    show (splitGo (a :: t) (a :: (t ++ rest)) cur 0).head? = some (cur.reverse ++ [])
    rw [splitGo, if_pos hpre]
    simp
  | cons c p ih =>
    intro cur hc
    have hca : c ≠ a := hc c (by simp)
    have hpre : ¬ (a :: t).isPrefixOf (c :: (p ++ (a :: t) ++ rest)) = true := by
      simp [List.isPrefixOf, Ne.symm hca]
    have := ih (c :: cur) (fun x hx => hc x (by simp [hx]))
    show (splitGo (a :: t) (c :: (p ++ (a :: t) ++ rest)) cur 0).head? = _
    rw [splitGo, if_neg hpre, this]
    simp

/-- The first piece of `r ++ k` split at `k` is `r` when `r` is free of the
first character of `k`. -/
theorem Split_head (r k : String) (a : Char) (t : List Char) (hk : k.data = a :: t)
    (hr : ∀ c ∈ r.data, c ≠ a) : (Split (r ++ k) k).headD "" = r := by
  have h := splitGo_head a t [] r.data [] hr
  simp only [List.append_nil, List.reverse_nil, List.nil_append] at h
  have hne : k.data ≠ [] := by simp [hk]
  simp only [Split, hne, if_false, String.data_append, hk]
  cases hs : splitGo (a :: t) (r.data ++ a :: t) [] 0 with
  | nil => simp [hs] at h
  | cons x xs =>
    simp only [hs, List.head?_cons, Option.some.injEq] at h
    simp [h]

/-! ## The loop of `SetMaxMemory` -/

theorem SetMaxMemoryLoop_no_unit (size : String) (units : List (String × Int)) :
    ∀ c : cache V, (∀ p ∈ units, HasSuffix size p.1 = false) →
      SetMaxMemoryLoop size units c = (true, c) := by
  induction units with
  | nil => intro c _; rfl
  | cons p rest ih =>
    intro c h
    obtain ⟨k, v⟩ := p
    have hk : HasSuffix size k = false := h (k, v) (by simp)
    simp only [SetMaxMemoryLoop, hk]
    exact ih c (fun q hq => h q (by simp [hq]))

theorem SetMaxMemoryLoop_parse_error (size k : String) (v : Int) (units : List (String × Int))
    (hsuf : HasSuffix size k = true)
    (hparse : Atoi ((Split size k).headD "") = none)
    (huniq : ∀ p ∈ units, HasSuffix size p.1 = true → p = (k, v)) :
    ∀ c : cache V, (k, v) ∈ units → SetMaxMemoryLoop size units c = (false, c) := by
  induction units with
  | nil => intro c h; simp at h
  | cons p rest ih =>
    intro c hmem
    obtain ⟨k', v'⟩ := p
    by_cases hs : HasSuffix size k' = true
    · have e := huniq (k', v') (by simp) hs
      simp only [Prod.mk.injEq] at e
      obtain ⟨rfl, rfl⟩ := e
      rw [SetMaxMemoryLoop, if_pos hs, hparse]
    · have hin : (k, v) ∈ rest := by
        rcases List.mem_cons.1 hmem with e | e
        · simp only [Prod.mk.injEq] at e
          exact absurd (e.1 ▸ hsuf) hs
        · exact e
      rw [SetMaxMemoryLoop, if_neg hs]
      exact ih (fun q hq => huniq q (by simp [hq])) c hin

theorem SetMaxMemoryLoop_parsed_again (size k : String) (v i : Int)
    (units : List (String × Int))
    (hparse : Atoi ((Split size k).headD "") = some i)
    (huniq : ∀ p ∈ units, HasSuffix size p.1 = true → p = (k, v)) :
    ∀ c : cache V, c.totalMemory = toInt64 (i * v) →
      SetMaxMemoryLoop size units c = (true, c) := by
  induction units with
  | nil => intro c _; rfl
  | cons p rest ih =>
    intro c hc
    obtain ⟨k', v'⟩ := p
    by_cases hs : HasSuffix size k' = true
    · have e := huniq (k', v') (by simp) hs
      simp only [Prod.mk.injEq] at e
      obtain ⟨rfl, rfl⟩ := e
      rw [SetMaxMemoryLoop, if_pos hs, hparse]
      have hcc : ({ c with totalMemory := toInt64 (i * v') } : cache V) = c := by
        cases c
        simp only at hc
        simp [hc]
      show SetMaxMemoryLoop size rest { c with totalMemory := toInt64 (i * v') } = (true, c)
      rw [hcc]
      exact ih (fun q hq => huniq q (by simp [hq])) c hc
    · rw [SetMaxMemoryLoop, if_neg hs]
      exact ih (fun q hq => huniq q (by simp [hq])) c hc

theorem SetMaxMemoryLoop_parsed (size k : String) (v i : Int) (units : List (String × Int))
    (hsuf : HasSuffix size k = true)
    (hparse : Atoi ((Split size k).headD "") = some i)
    (huniq : ∀ p ∈ units, HasSuffix size p.1 = true → p = (k, v)) :
    ∀ c : cache V, (k, v) ∈ units →
      SetMaxMemoryLoop size units c = (true, { c with totalMemory := toInt64 (i * v) }) := by
  induction units with
  | nil => intro c h; simp at h
  | cons p rest ih =>
    intro c hmem
    obtain ⟨k', v'⟩ := p
    by_cases hs : HasSuffix size k' = true
    · have e := huniq (k', v') (by simp) hs
      simp only [Prod.mk.injEq] at e
      obtain ⟨rfl, rfl⟩ := e
      rw [SetMaxMemoryLoop, if_pos hs, hparse]
      exact SetMaxMemoryLoop_parsed_again size k' v' i rest hparse
        (fun q hq => huniq q (by simp [hq])) _ rfl
    · have hin : (k, v) ∈ rest := by
        rcases List.mem_cons.1 hmem with e | e
        · simp only [Prod.mk.injEq] at e
          exact absurd (e.1 ▸ hsuf) hs
        · exact e
      rw [SetMaxMemoryLoop, if_neg hs]
      exact ih (fun q hq => huniq q (by simp [hq])) c hin

/-! ## `SetMaxMemory` and `New`, whatever the order of the units -/

theorem SetMaxMemory_no_unit (order : List (String × Int)) (horder : order.Perm memoryUnits)
    (c : cache V) (size : String) (h : ∀ p ∈ memoryUnits, HasSuffix size p.1 = false) :
    SetMaxMemory order c size = (true, c) :=
  SetMaxMemoryLoop_no_unit size order c (fun p hp => h p (horder.mem_iff.1 hp))

theorem SetMaxMemory_parse_error (order : List (String × Int))
    (horder : order.Perm memoryUnits) (c : cache V) (size k : String) (v : Int)
    (hu : (k, v) ∈ memoryUnits) (hsuf : HasSuffix size k = true)
    (hparse : Atoi ((Split size k).headD "") = none) :
    SetMaxMemory order c size = (false, c) :=
  SetMaxMemoryLoop_parse_error size k v order hsuf hparse
    (fun p hp hs => unit_suffix_unique size p (k, v) (horder.mem_iff.1 hp) hu hs hsuf)
    c (horder.mem_iff.2 hu)

theorem SetMaxMemory_parsed (order : List (String × Int))
    (horder : order.Perm memoryUnits) (c : cache V) (size k : String) (v i : Int)
    (hu : (k, v) ∈ memoryUnits) (hsuf : HasSuffix size k = true)
    (hparse : Atoi ((Split size k).headD "") = some i) :
    SetMaxMemory order c size = (true, { c with totalMemory := toInt64 (i * v) }) :=
  SetMaxMemoryLoop_parsed size k v i order hsuf hparse
    (fun p hp hs => unit_suffix_unique size p (k, v) (horder.mem_iff.1 hp) hu hs hsuf)
    c (horder.mem_iff.2 hu)

/-- The first character of a unit name is neither a digit nor a sign. -/
theorem unit_data (p : String × Int) (hp : p ∈ memoryUnits) :
    ∃ a t, p.1.data = a :: t ∧ digitVal a = none ∧ a ≠ '-' ∧ a ≠ '+' := by
  rcases mem_memoryUnits p hp with rfl | rfl | rfl
  · exact ⟨'K', ['B'], rfl, by decide, by decide, by decide⟩
  · exact ⟨'M', ['B'], rfl, by decide, by decide, by decide⟩
  · exact ⟨'G', ['B'], rfl, by decide, by decide, by decide⟩

/-- A text `Atoi` accepts, followed by a unit, sets the budget to the number
scaled by the unit, in 64 bits. -/
theorem New_of_Atoi (order : List (String × Int)) (horder : order.Perm memoryUnits)
    (r k : String) (v i : Int) (hu : (k, v) ∈ memoryUnits) (hr : Atoi r = some i) :
    New (V := V) order (r ++ k) =
      (⟨some { defaultExpiration := 0, totalMemory := toInt64 (i * v), usedMemory := 0,
               _data := ∅, RWMutex := none }⟩, none) := by
  obtain ⟨a, t, hk, ha, hminus, hplus⟩ := unit_data (k, v) hu
  have hfree : ∀ c ∈ r.data, c ≠ a := by
    intro c hc e
    rcases Atoi_chars r i hr c hc with h | h | h
    · exact h (e ▸ ha)
    · exact hminus (e ▸ h)
    · exact hplus (e ▸ h)
  have hparse : Atoi ((Split (r ++ k) k).headD "") = some i := by
    rw [Split_head r k a t hk hfree, hr]
  unfold New
  simp only [SetMaxMemory_parsed order horder _ (r ++ k) k v i hu (HasSuffix_append _ k) hparse]
  rfl

theorem toInt64_of_range (x : Int) (h1 : -2 ^ 63 ≤ x) (h2 : x < 2 ^ 63) : toInt64 x = x := by
  unfold toInt64
  rw [Int.emod_eq_of_lt (by omega) (by omega)]
  omega

/-! ## The operations on an engine whose lock is allocated -/

theorem Finmap_erase_absent (s : Finmap (fun _ : String => value V)) (key : String)
    (h : s.lookup key = none) : s.erase key = s := by
  apply Finmap.ext_lookup
  intro x
  by_cases hx : x = key
  · subst hx
    rw [Finmap.lookup_erase, h]
  · exact Finmap.lookup_erase_ne hx

theorem Exists_of_lock (c : cache V) (m : RWMutex) (hm : c.RWMutex = some m) (hw : m.w = false)
    (key : String) : Exists c key = .ok ((c._data.lookup key).isSome, c) := by
  obtain ⟨de, tm, um, d, l⟩ := c
  obtain ⟨w, rc⟩ := m
  simp only at hm hw
  subst hm hw
  simp [Exists, RLock, RUnlock, bind, Except.bind, pure, Except.pure]

theorem Flush_of_lock (c : cache V) (m : RWMutex) (hm : c.RWMutex = some m) (hw : m.w = false) :
    Flush c = .ok (true, { c with _data := ∅ }) := by
  obtain ⟨de, tm, um, d, l⟩ := c
  obtain ⟨w, rc⟩ := m
  simp only at hm hw
  subst hm hw
  simp [Flush, RLock, RUnlock, bind, Except.bind, pure, Except.pure]

theorem Del_of_lock (c : cache V) (m : RWMutex) (hm : c.RWMutex = some m) (hw : m.w = false)
    (key : String) :
    Del c key = .ok ((c._data.lookup key).isSome, { c with _data := c._data.erase key }) := by
  obtain ⟨de, tm, um, d, l⟩ := c
  obtain ⟨w, rc⟩ := m
  simp only at hm hw
  subst hm hw
  cases hl : d.lookup key with
  | none =>
    simp [Del, RLock, RUnlock, bind, Except.bind, pure, Except.pure, hl,
      Finmap_erase_absent d key hl]
  | some e =>
    simp [Del, RLock, RUnlock, bind, Except.bind, pure, Except.pure, hl]

theorem Get_absent (now : Int) (c : cache V) (m : RWMutex) (hm : c.RWMutex = some m)
    (hw : m.w = false) (key : String) (hl : c._data.lookup key = none) :
    Get now c key = .ok ((none, false), c) := by
  obtain ⟨de, tm, um, d, l⟩ := c
  obtain ⟨w, rc⟩ := m
  simp only at hm hw hl
  subst hm hw
  simp [Get, RLock, RUnlock, bind, Except.bind, pure, Except.pure, hl]

theorem Get_live (now : Int) (c : cache V) (m : RWMutex) (hm : c.RWMutex = some m)
    (hw : m.w = false) (key : String) (d : value V) (hl : c._data.lookup key = some d)
    (hlive : d.expire = 0 ∨ now < d.expire) :
    Get now c key = .ok ((d.value, true), c) := by
  obtain ⟨de, tm, um, dt, l⟩ := c
  obtain ⟨w, rc⟩ := m
  simp only at hm hw hl
  subst hm hw
  simp [Get, RLock, RUnlock, bind, Except.bind, pure, Except.pure, hl, hlive]

/-- On an expired entry `Get` hands back what `Del` returns, which is `true`. -/
theorem Get_expired (now : Int) (c : cache V) (m : RWMutex) (hm : c.RWMutex = some m)
    (hw : m.w = false) (key : String) (d : value V) (hl : c._data.lookup key = some d)
    (h0 : d.expire ≠ 0) (hexp : d.expire ≤ now) :
    Get now c key = .ok ((none, true), { c with _data := c._data.erase key }) := by
  obtain ⟨de, tm, um, dt, l⟩ := c
  obtain ⟨w, rc⟩ := m
  simp only at hm hw hl
  subst hm hw
  have hdead : ¬ (d.expire = 0 ∨ now < d.expire) := by
    rintro (h | h)
    · exact h0 h
    · omega
  simp [Get, Del, RLock, RUnlock, bind, Except.bind, pure, Except.pure, hl, hdead]

theorem Set_rejected (gob : Option V → Option (List Nat)) (now : Int) (c : cache V)
    (key : String) (val : Option V) (expire : Int) (buf : List Nat) (henc : gob val = some buf)
    (hover : c.totalMemory < toInt64 (c.usedMemory + (buf.length : Int))) :
    Set gob now c key val expire = .ok c := by
  simp [Set, getBytesLen, henc, hover]

theorem Set_unencodable (gob : Option V → Option (List Nat)) (now : Int) (c : cache V)
    (key : String) (val : Option V) (expire : Int) (henc : gob val = none) :
    Set gob now c key val expire = .ok c := by
  simp [Set, getBytesLen, henc]

theorem Set_accepted (gob : Option V → Option (List Nat)) (now : Int) (c : cache V)
    (m : RWMutex) (hm : c.RWMutex = some m) (hw : m.w = false) (hr : m.readerCount = 0)
    (key : String) (val : Option V) (expire : Int) (buf : List Nat) (henc : gob val = some buf)
    (hfit : toInt64 (c.usedMemory + (buf.length : Int)) ≤ c.totalMemory) :
    Set gob now c key val expire =
      .ok { c with
        _data := c._data.insert key ⟨val, if expire > 0 then toInt64 (now + expire) else 0⟩ } := by
  obtain ⟨de, tm, um, dt, l⟩ := c
  obtain ⟨w, rc⟩ := m
  simp only at hm hw hr hfit
  subst hm hw hr
  have hnot : ¬ tm < toInt64 (um + (buf.length : Int)) := by omega
  simp [Set, getBytesLen, henc, hnot, Lock, Unlock, bind, Except.bind]

/-- An accepted `Set` on an engine whose lock pointer is nil stops at `c.Lock()`. -/
theorem Set_accepted_nil_lock (gob : Option V → Option (List Nat)) (now : Int) (c : cache V)
    (hm : c.RWMutex = none) (key : String) (val : Option V) (expire : Int) (buf : List Nat)
    (henc : gob val = some buf)
    (hfit : toInt64 (c.usedMemory + (buf.length : Int)) ≤ c.totalMemory) :
    Set gob now c key val expire = .error .nilDereference := by
  obtain ⟨de, tm, um, dt, l⟩ := c
  simp only at hm hfit
  subst hm
  have hnot : ¬ tm < toInt64 (um + (buf.length : Int)) := by omega
  simp [Set, getBytesLen, henc, hnot, Lock, bind, Except.bind]

/-! ## The operations on an engine whose lock pointer is nil -/

theorem Get_nil_lock (now : Int) (c : cache V) (hm : c.RWMutex = none) (key : String) :
    Get now c key = .error .nilDereference := by
  simp [Get, RLock, hm, bind, Except.bind]

theorem Del_nil_lock (c : cache V) (hm : c.RWMutex = none) (key : String) :
    Del c key = .error .nilDereference := by
  simp [Del, RLock, hm, bind, Except.bind]

theorem Exists_nil_lock (c : cache V) (hm : c.RWMutex = none) (key : String) :
    Exists c key = .error .nilDereference := by
  simp [Exists, RLock, hm, bind, Except.bind]

theorem Flush_nil_lock (c : cache V) (hm : c.RWMutex = none) :
    Flush c = .error .nilDereference := by
  simp [Flush, RLock, hm, bind, Except.bind]

/-- The engine `New` returns never has a lock: the field is left nil. -/
theorem New_lock_nil (order : List (String × Int)) (size : String) (c : cache V)
    (h : (New (V := V) order size).1.cache = some c) :
    c.RWMutex = none ∧ c.usedMemory = 0 ∧ c._data = ∅ := by
  have key : ∀ (units : List (String × Int)) (c0 : cache V),
      (SetMaxMemoryLoop size units c0).2.RWMutex = c0.RWMutex ∧
      (SetMaxMemoryLoop size units c0).2.usedMemory = c0.usedMemory ∧
      (SetMaxMemoryLoop size units c0).2._data = c0._data := by
    intro units
    induction units with
    | nil => intro c0; exact ⟨rfl, rfl, rfl⟩
    | cons p rest ih =>
      intro c0
      obtain ⟨k, v⟩ := p
      simp only [SetMaxMemoryLoop]
      split
      · split
        · exact ⟨rfl, rfl, rfl⟩
        · exact ih _
      · exact ih _
  unfold New at h
  simp only [SetMaxMemory] at h
  split at h
  · simp at h
  · simp only [Option.some.injEq] at h
    subst h
    exact key order _

/-! ## Every order of the units gives the same result -/

/-- A text `Atoi` accepts, followed by a unit, is parsed whole. -/
theorem SetMaxMemory_of_Atoi (order : List (String × Int)) (horder : order.Perm memoryUnits)
    (c : cache V) (r k : String) (v i : Int) (hu : (k, v) ∈ memoryUnits)
    (hr : Atoi r = some i) :
    SetMaxMemory order c (r ++ k) = (true, { c with totalMemory := toInt64 (i * v) }) := by
  obtain ⟨a, t, hk, ha, hminus, hplus⟩ := unit_data (k, v) hu
  have hfree : ∀ ch ∈ r.data, ch ≠ a := by
    intro ch hc e
    rcases Atoi_chars r i hr ch hc with h | h | h
    · exact h (e ▸ ha)
    · exact hminus (e ▸ h)
    · exact hplus (e ▸ h)
  have hparse : Atoi ((Split (r ++ k) k).headD "") = some i := by
    rw [Split_head r k a t hk hfree, hr]
  exact SetMaxMemory_parsed order horder c (r ++ k) k v i hu (HasSuffix_append _ k) hparse

/-- What `SetMaxMemory` returns, by cases on the one unit that can be a suffix
of `size`; the order of the units does not enter. -/
theorem SetMaxMemory_cases (order : List (String × Int)) (horder : order.Perm memoryUnits)
    (c : cache V) (size : String) :
    ((∀ p ∈ memoryUnits, HasSuffix size p.1 = false) ∧ SetMaxMemory order c size = (true, c)) ∨
    (∃ k v, (k, v) ∈ memoryUnits ∧ HasSuffix size k = true ∧
        Atoi ((Split size k).headD "") = none ∧ SetMaxMemory order c size = (false, c)) ∨
    (∃ k v i, (k, v) ∈ memoryUnits ∧ HasSuffix size k = true ∧
        Atoi ((Split size k).headD "") = some i ∧
        SetMaxMemory order c size = (true, { c with totalMemory := toInt64 (i * v) })) := by
  by_cases hnone : ∀ p ∈ memoryUnits, HasSuffix size p.1 = false
  · exact Or.inl ⟨hnone, SetMaxMemory_no_unit order horder c size hnone⟩
  · right
    have hex : ∃ p ∈ memoryUnits, HasSuffix size p.1 = true := by
      by_contra hcon
      apply hnone
      intro p hp
      by_contra hs
      exact hcon ⟨p, hp, by simpa using hs⟩
    obtain ⟨⟨k, v⟩, hu, hsuf⟩ := hex
    cases hparse : Atoi ((Split size k).headD "") with
    | none =>
      exact Or.inl ⟨k, v, hu, hsuf, hparse,
        SetMaxMemory_parse_error order horder c size k v hu hsuf hparse⟩
    | some i =>
      exact Or.inr ⟨k, v, i, hu, hsuf, hparse,
        SetMaxMemory_parsed order horder c size k v i hu hsuf hparse⟩

/-- The loop of `SetMaxMemory` writes nothing but `totalMemory`, in any order
of any units. -/
theorem SetMaxMemoryLoop_fields (size : String) (units : List (String × Int)) :
    ∀ c : cache V,
      (SetMaxMemoryLoop size units c).2.RWMutex = c.RWMutex ∧
      (SetMaxMemoryLoop size units c).2.usedMemory = c.usedMemory ∧
      (SetMaxMemoryLoop size units c).2._data = c._data ∧
      (SetMaxMemoryLoop size units c).2.defaultExpiration = c.defaultExpiration := by
  induction units with
  | nil => intro c; exact ⟨rfl, rfl, rfl, rfl⟩
  | cons p rest ih =>
    intro c
    obtain ⟨k, v⟩ := p
    simp only [SetMaxMemoryLoop]
    split
    · split
      · exact ⟨rfl, rfl, rfl, rfl⟩
      · exact ih _
    · exact ih _

/-- The text of a negative integer is a minus sign and the text of its size. -/
theorem toString_neg (n : Nat) (hn : 1 ≤ n) :
    toString (-(n : Int)) = "-" ++ toString n := by
  obtain ⟨m, rfl⟩ : ∃ m, n = m + 1 := ⟨n - 1, by omega⟩
  rfl

/-! ## What a call that returns has done -/

theorem RLock_returns (c c1 : cache V) (h : RLock c = .ok c1) :
    ∃ m : RWMutex, c.RWMutex = some m ∧ m.w = false := by
  unfold RLock at h
  cases hm : c.RWMutex with
  | none => simp [hm] at h
  | some m =>
    refine ⟨m, rfl, ?_⟩
    cases hw : m.w with
    | false => rfl
    | true => simp [hm, hw] at h

theorem Get_returns (now : Int) (c : cache V) (key : String)
    (x : (Option V × Bool) × cache V) (h : Get now c key = .ok x) :
    ∃ m : RWMutex, c.RWMutex = some m ∧ m.w = false := by
  cases hR : RLock c with
  | error e => simp [Get, hR, bind, Except.bind] at h
  | ok c1 => exact RLock_returns c c1 hR

theorem Del_returns (c : cache V) (key : String) (x : Bool × cache V)
    (h : Del c key = .ok x) : ∃ m : RWMutex, c.RWMutex = some m ∧ m.w = false := by
  cases hR : RLock c with
  | error e => simp [Del, hR, bind, Except.bind] at h
  | ok c1 => exact RLock_returns c c1 hR

theorem Exists_returns (c : cache V) (key : String) (x : Bool × cache V)
    (h : Exists c key = .ok x) : ∃ m : RWMutex, c.RWMutex = some m ∧ m.w = false := by
  cases hR : RLock c with
  | error e => simp [Exists, hR, bind, Except.bind] at h
  | ok c1 => exact RLock_returns c c1 hR

theorem Flush_returns (c : cache V) (x : Bool × cache V)
    (h : Flush c = .ok x) : ∃ m : RWMutex, c.RWMutex = some m ∧ m.w = false := by
  cases hR : RLock c with
  | error e => simp [Flush, hR, bind, Except.bind] at h
  | ok c1 => exact RLock_returns c c1 hR

/-- A `Set` that returns either left the engine as it was or wrote the one
entry under a lock it found free. -/
theorem Set_returns (gob : Option V → Option (List Nat)) (now : Int) (c c' : cache V)
    (key : String) (val : Option V) (expire : Int)
    (h : Set gob now c key val expire = .ok c') :
    c' = c ∨
      ((∃ m : RWMutex, c.RWMutex = some m ∧ m.w = false ∧ m.readerCount = 0) ∧
        (∃ buf, gob val = some buf ∧
          toInt64 (c.usedMemory + (buf.length : Int)) ≤ c.totalMemory) ∧
        c' = { c with
          _data := c._data.insert key ⟨val, if expire > 0 then toInt64 (now + expire) else 0⟩ }) := by
  cases henc : gob val with
  | none =>
    rw [Set_unencodable gob now c key val expire henc] at h
    exact Or.inl (Except.ok.inj h).symm
  | some buf =>
    by_cases hover : c.totalMemory < toInt64 (c.usedMemory + (buf.length : Int))
    · rw [Set_rejected gob now c key val expire buf henc hover] at h
      exact Or.inl (Except.ok.inj h).symm
    · have hfit : toInt64 (c.usedMemory + (buf.length : Int)) ≤ c.totalMemory := by omega
      cases hm : c.RWMutex with
      | none =>
        rw [Set_accepted_nil_lock gob now c hm key val expire buf henc hfit] at h
        cases h
      | some m =>
        by_cases hfree : m.w = false ∧ m.readerCount = 0
        · rw [Set_accepted gob now c m hm hfree.1 hfree.2 key val expire buf henc hfit] at h
          refine Or.inr ⟨⟨m, rfl, hfree.1, hfree.2⟩, ⟨buf, rfl, hfit⟩, ?_⟩
          rw [← hm]
          exact (Except.ok.inj h).symm
        · exfalso
          have hblocked : (m.w || m.readerCount != 0) = true := by
            cases hw : m.w with
            | true => simp
            | false =>
              have : m.readerCount ≠ 0 := fun h0 => hfree ⟨hw, h0⟩
              simp [this]
          simp [Set, getBytesLen, henc, hover, Lock, hm, hblocked, bind, Except.bind] at h

theorem Get_ok_cases (now : Int) (c c' : cache V) (key : String) (r : Option V × Bool)
    (h : Get now c key = .ok (r, c')) :
    (c._data.lookup key = none ∧ r = (none, false) ∧ c' = c) ∨
    (∃ d : value V, c._data.lookup key = some d ∧ (d.expire = 0 ∨ now < d.expire) ∧
        r = (d.value, true) ∧ c' = c) ∨
    (∃ d : value V, c._data.lookup key = some d ∧ d.expire ≠ 0 ∧ d.expire ≤ now ∧
        r = (none, true) ∧ c' = { c with _data := c._data.erase key }) := by
  obtain ⟨m, hm, hw⟩ := Get_returns now c key _ h
  cases hl : c._data.lookup key with
  | none =>
    rw [Get_absent now c m hm hw key hl] at h
    have e := Except.ok.inj h
    simp only [Prod.mk.injEq] at e
    exact Or.inl ⟨rfl, e.1.symm, e.2.symm⟩
  | some d =>
    by_cases hlive : d.expire = 0 ∨ now < d.expire
    · rw [Get_live now c m hm hw key d hl hlive] at h
      have e := Except.ok.inj h
      simp only [Prod.mk.injEq] at e
      exact Or.inr (Or.inl ⟨d, rfl, hlive, e.1.symm, e.2.symm⟩)
    · have h0 : d.expire ≠ 0 := fun h0 => hlive (Or.inl h0)
      have hexp : d.expire ≤ now := by
        by_contra hcon
        exact hlive (Or.inr (by omega))
      rw [Get_expired now c m hm hw key d hl h0 hexp] at h
      have e := Except.ok.inj h
      simp only [Prod.mk.injEq] at e
      exact Or.inr (Or.inr ⟨d, rfl, h0, hexp, e.1.symm, e.2.symm⟩)

theorem Del_ok (c c' : cache V) (key : String) (b : Bool) (h : Del c key = .ok (b, c')) :
    b = (c._data.lookup key).isSome ∧ c' = { c with _data := c._data.erase key } := by
  obtain ⟨m, hm, hw⟩ := Del_returns c key _ h
  rw [Del_of_lock c m hm hw key] at h
  have e := Except.ok.inj h
  simp only [Prod.mk.injEq] at e
  exact ⟨e.1.symm, e.2.symm⟩

theorem Exists_ok (c c' : cache V) (key : String) (b : Bool) (h : Exists c key = .ok (b, c')) :
    b = (c._data.lookup key).isSome ∧ c' = c := by
  obtain ⟨m, hm, hw⟩ := Exists_returns c key _ h
  rw [Exists_of_lock c m hm hw key] at h
  have e := Except.ok.inj h
  simp only [Prod.mk.injEq] at e
  exact ⟨e.1.symm, e.2.symm⟩

theorem Flush_ok (c c' : cache V) (b : Bool) (h : Flush c = .ok (b, c')) :
    b = true ∧ c' = { c with _data := ∅ } := by
  obtain ⟨m, hm, hw⟩ := Flush_returns c _ h
  rw [Flush_of_lock c m hm hw] at h
  have e := Except.ok.inj h
  simp only [Prod.mk.injEq] at e
  exact ⟨e.1.symm, e.2.symm⟩

/-- No call touches `usedMemory`, `defaultExpiration` or the lock it found. -/
theorem Step_fields (gob : Option V → Option (List Nat)) (c c' : cache V)
    (h : Step gob c c') :
    c'.usedMemory = c.usedMemory ∧ c'.RWMutex = c.RWMutex ∧
      c'.defaultExpiration = c.defaultExpiration := by
  cases h with
  | setMaxMemory order size _ =>
    obtain ⟨h1, h2, _, h4⟩ := SetMaxMemoryLoop_fields size order c
    exact ⟨h2, h1, h4⟩
  | set _ now key val expire hs =>
    rcases Set_returns gob now c c' key val expire hs with e | ⟨_, _, e⟩ <;>
      subst e <;> exact ⟨rfl, rfl, rfl⟩
  | get _ now key r hg =>
    rcases Get_ok_cases now c c' key r hg with ⟨_, _, e⟩ | ⟨d, _, _, _, e⟩ | ⟨d, _, _, _, _, e⟩ <;>
      subst e <;> exact ⟨rfl, rfl, rfl⟩
  | del _ key b hd =>
    obtain ⟨_, e⟩ := Del_ok c c' key b hd
    subst e
    exact ⟨rfl, rfl, rfl⟩
  | probe _ key b he =>
    obtain ⟨_, e⟩ := Exists_ok c c' key b he
    subst e
    exact ⟨rfl, rfl, rfl⟩
  | flush _ b hf =>
    obtain ⟨_, e⟩ := Flush_ok c c' b hf
    subst e
    exact ⟨rfl, rfl, rfl⟩
  | keys => exact ⟨rfl, rfl, rfl⟩

/-- Every engine a caller can hold has no usage, no lock and an empty table:
the lock pointer stays nil, so no call that reaches the table returns. -/
theorem Reachable_invariant (gob : Option V → Option (List Nat)) (c : cache V)
    (h : Reachable gob c) : c.usedMemory = 0 ∧ c.RWMutex = none ∧ c._data = ∅ := by
  induction h with
  | new order size c _ hnew =>
    have hc : (New (V := V) order size).1.cache = some c := by rw [hnew]
    obtain ⟨h1, h2, h3⟩ := New_lock_nil order size c hc
    exact ⟨h2, h1, h3⟩
  | step c c' _ hstep ih =>
    obtain ⟨hu, hl, hd⟩ := ih
    obtain ⟨f1, f2, _⟩ := Step_fields gob c c' hstep
    refine ⟨f1.trans hu, f2.trans hl, ?_⟩
    cases hstep with
    | setMaxMemory order size _ =>
      exact (SetMaxMemoryLoop_fields size order c).2.2.1.trans hd
    | set _ now key val expire hs =>
      rcases Set_returns gob now c c' key val expire hs with e | ⟨⟨m, hm, _⟩, _, _⟩
      · rw [e]; exact hd
      · rw [hl] at hm; cases hm
    | get _ now key r hg =>
      obtain ⟨m, hm, _⟩ := Get_returns now c key _ hg
      rw [hl] at hm; cases hm
    | del _ key b hdel =>
      obtain ⟨m, hm, _⟩ := Del_returns c key _ hdel
      rw [hl] at hm; cases hm
    | probe _ key b he =>
      obtain ⟨m, hm, _⟩ := Exists_returns c key _ he
      rw [hl] at hm; cases hm
    | flush _ b hf =>
      obtain ⟨m, hm, _⟩ := Flush_returns c _ hf
      rw [hl] at hm; cases hm
    | keys => exact hd

/-! ## Counting keys -/

theorem Finmap_keys_insert (s : Finmap (fun _ : String => value V)) (key : String)
    (d : value V) : (s.insert key d).keys = insert key s.keys := by
  ext x
  simp only [Finmap.mem_keys, Finmap.mem_insert, Finset.mem_insert]

theorem Keys_eq_card (c : cache V) (hlen : c._data.keys.card < 2 ^ 63) :
    Keys c = (c._data.keys.card : Int) := by
  unfold Keys
  exact toInt64_of_range _ (by omega) (by exact_mod_cast hlen)

/-- Writing a key that is in the table keeps the count. -/
theorem Keys_insert_present (c : cache V) (key : String) (d e : value V)
    (hl : c._data.lookup key = some e) :
    Keys { c with _data := c._data.insert key d } = Keys c := by
  have hmem : key ∈ c._data.keys := Finmap.mem_keys.2 (Finmap.mem_of_lookup_eq_some hl)
  simp only [Keys, Finmap_keys_insert, Finset.insert_eq_of_mem hmem]

/-- Writing a key that is not in the table adds one to the count. -/
theorem Keys_insert_absent (c : cache V) (key : String) (d : value V)
    (hl : c._data.lookup key = none) (hlen : c._data.keys.card + 1 < 2 ^ 63) :
    Keys { c with _data := c._data.insert key d } = Keys c + 1 := by
  have hmem : key ∉ c._data.keys := fun h => Finmap.lookup_eq_none.1 hl (Finmap.mem_keys.1 h)
  have h1 : (c._data.insert key d).keys.card = c._data.keys.card + 1 := by
    rw [Finmap_keys_insert, Finset.card_insert_of_not_mem hmem]
  rw [Keys_eq_card c (by omega), Keys_eq_card _ (by simp only [h1]; omega)]
  simp only [h1]
  push_cast
  ring

/-- Every entry of the table, whatever its expiry, counts for one key. -/
theorem Keys_erase_entry (c : cache V) (key : String) (d : value V)
    (hl : c._data.lookup key = some d) (hlen : c._data.keys.card < 2 ^ 63) :
    Keys c = Keys { c with _data := c._data.erase key } + 1 := by
  have hmem : key ∈ c._data.keys := Finmap.mem_keys.2 (Finmap.mem_of_lookup_eq_some hl)
  have h1 : (c._data.erase key).keys.card = c._data.keys.card - 1 := by
    rw [Finmap.keys_erase, Finset.card_erase_of_mem hmem]
  have hpos : 0 < c._data.keys.card := Finset.card_pos.2 ⟨key, hmem⟩
  rw [Keys_eq_card c hlen, Keys_eq_card _ (by simp only [h1]; omega)]
  simp only [h1]
  omega

/-- A `Set` that does not return stopped at `c.Lock()`, before the table was
touched. -/
theorem Set_error_at_Lock (gob : Option V → Option (List Nat)) (now : Int) (c : cache V)
    (key : String) (val : Option V) (expire : Int) (e : Fault)
    (h : Set gob now c key val expire = .error e) : Lock c = .error e := by
  cases henc : gob val with
  | none =>
    rw [Set_unencodable gob now c key val expire henc] at h
    cases h
  | some buf =>
    by_cases hover : c.totalMemory < toInt64 (c.usedMemory + (buf.length : Int))
    · rw [Set_rejected gob now c key val expire buf henc hover] at h
      cases h
    · cases hL : Lock c with
      | error e' =>
        simp only [Set, getBytesLen, henc, hover, hL, bind, Except.bind, gt_iff_lt,
          if_false] at h
        rw [Except.error.inj h]
      | ok c1 =>
        exfalso
        have hw : ∃ m : RWMutex, c1.RWMutex = some m ∧ m.w = true := by
          unfold Lock at hL
          cases hm : c.RWMutex with
          | none => simp [hm] at hL
          | some m =>
            simp only [hm] at hL
            split at hL
            · cases hL
            · have := Except.ok.inj hL
              subst this
              exact ⟨_, rfl, rfl⟩
        obtain ⟨m, hm1, hw1⟩ := hw
        simp [Set, getBytesLen, henc, hover, hL, bind, Except.bind, Unlock, hm1, hw1] at h

/-- A `Get` that returns leaves the entries of all other keys as they were. -/
theorem Get_other_keys (now : Int) (c c' : cache V) (key : String) (r : Option V × Bool)
    (h : Get now c key = .ok (r, c')) :
    ∀ k' : String, k' ≠ key → c'._data.lookup k' = c._data.lookup k' := by
  intro k' hk
  rcases Get_ok_cases now c c' key r h with ⟨_, _, e⟩ | ⟨d, _, _, _, e⟩ | ⟨d, _, _, _, _, e⟩
  · rw [e]
  · rw [e]
  · rw [e]
    exact Finmap.lookup_erase_ne hk

/-- A `Get` that does not return stopped at its `c.RLock()`, before the entry
was read. -/
theorem Get_error_at_RLock (now : Int) (c : cache V) (key : String) (e : Fault)
    (h : Get now c key = .error e) : RLock c = .error e := by
  cases hR : RLock c with
  | error e' =>
    simp only [Get, hR, bind, Except.bind] at h
    rw [Except.error.inj h]
  | ok c1 =>
    exfalso
    obtain ⟨m, hm, hw⟩ := RLock_returns c c1 hR
    cases hl : c._data.lookup key with
    | none =>
      rw [Get_absent now c m hm hw key hl] at h
      cases h
    | some d =>
      by_cases hlive : d.expire = 0 ∨ now < d.expire
      · rw [Get_live now c m hm hw key d hl hlive] at h
        cases h
      · have h0 : d.expire ≠ 0 := fun h0 => hlive (Or.inl h0)
        have hexp : d.expire ≤ now := by
          by_contra hcon
          exact hlive (Or.inr (by omega))
        rw [Get_expired now c m hm hw key d hl h0 hexp] at h
        cases h

/-! ## Claims -/

/-- C1, as amended: for every integer `n` with `-2^63 <= n < 2^63`, written
in decimal and followed at once by a unit `KB`, `MB` or `GB`, `New` returns a
nil error and an engine whose `totalMemory` is `n * unitBytes` reduced to a
signed 64-bit integer, the other fields being those of a fresh cache; the same
holds of every other text `strconv.Atoi` reads as `n` (leading zeros, a plus
sign), and the stored value is the exact product whenever the product fits
64 bits. -/
theorem New_budget_of_decimal (order : List (String × Int)) (horder : order.Perm memoryUnits)
    (n : Int) (k : String) (v : Int) (hu : (k, v) ∈ memoryUnits)
    (hlo : -2 ^ 63 ≤ n) (hhi : n < 2 ^ 63) :
    New (V := V) order (toString n ++ k) =
        (⟨some { defaultExpiration := 0, totalMemory := toInt64 (n * v), usedMemory := 0,
                 _data := ∅, RWMutex := none }⟩, none) ∧
      (∀ r : String, Atoi r = some n →
        New (V := V) order (r ++ k) =
          (⟨some { defaultExpiration := 0, totalMemory := toInt64 (n * v), usedMemory := 0,
                   _data := ∅, RWMutex := none }⟩, none)) ∧
      (-2 ^ 63 ≤ n * v → n * v < 2 ^ 63 → toInt64 (n * v) = n * v) :=
  ⟨New_of_Atoi order horder (toString n) k v n hu (Atoi_toString_int n hlo hhi),
    fun r hr => New_of_Atoi order horder r k v n hu hr,
    fun h1 h2 => toInt64_of_range _ h1 h2⟩

/-- The witness of C1: `New("1KB")` succeeds with a budget of 1024 bytes. -/
theorem New_budget_of_decimal_witness :
    memoryUnits.Perm memoryUnits ∧ ("KB", KB) ∈ memoryUnits ∧
      (-2 ^ 63 : Int) ≤ 1 ∧ (1 : Int) < 2 ^ 63 ∧
      New (V := Unit) memoryUnits "1KB" =
        (⟨some { defaultExpiration := 0, totalMemory := 1024, usedMemory := 0,
                 _data := ∅, RWMutex := none }⟩, none) :=
  ⟨List.Perm.refl _, by decide, by decide, by decide,
    (New_budget_of_decimal memoryUnits (List.Perm.refl _) 1 "KB" KB (by decide) (by decide)
      (by decide)).1⟩

/-- The counterexample to C1 as stated: the decimal integer `9223372036854775808`
followed by `KB` makes `New` fail, and `9007199254740992KB` is accepted with a
budget of `-2^63`, not the product `2^63`. -/
theorem New_budget_of_decimal_counterexample :
    New (V := Unit) memoryUnits "9223372036854775808KB" =
        (⟨none⟩, some GoError.ErrParameterOfSetMaxMemory) ∧
      (New (V := Unit) memoryUnits "9007199254740992KB").2 = none ∧
      (New (V := Unit) memoryUnits "9007199254740992KB").1.cache.map cache.totalMemory =
        some (-9223372036854775808) ∧
      (9007199254740992 : Int) * KB = 9223372036854775808 := by
  refine ⟨?_, ?_, ?_, by decide⟩ <;> rfl

/-- C2, as amended: for every string that ends with a recognized unit `KB`,
`MB` or `GB` and whose text before the first occurrence of that unit (the
first piece of `strings.Split`) is not accepted by `strconv.Atoi`,
`SetMaxMemory` returns false, leaving the engine as it was, and `New` returns
the error `ErrParameterOfSetMaxMemory`; that text is the remainder after
stripping the unit suffix whenever the remainder is free of the unit's first
letter. -/
theorem SetMaxMemory_rejects_unparsed (order : List (String × Int))
    (horder : order.Perm memoryUnits) (c : cache V) (size k : String) (v : Int)
    (hu : (k, v) ∈ memoryUnits) (hsuf : HasSuffix size k = true)
    (hparse : Atoi ((Split size k).headD "") = none) :
    SetMaxMemory order c size = (false, c) ∧
      New (V := V) order size = (⟨none⟩, some GoError.ErrParameterOfSetMaxMemory) ∧
      ∀ r : String, size = r ++ k → (∀ ch ∈ r.data, k.data.head? ≠ some ch) →
        (Split size k).headD "" = r := by
  refine ⟨SetMaxMemory_parse_error order horder c size k v hu hsuf hparse, ?_, ?_⟩
  · unfold New
    simp only [SetMaxMemory_parse_error order horder _ size k v hu hsuf hparse]
    rfl
  · intro r hr hfree
    obtain ⟨a, t, hk, _, _, _⟩ := unit_data (k, v) hu
    subst hr
    refine Split_head r k a t hk (fun ch hch e => hfree ch hch ?_)
    simp only at hk
    simp [hk, e]

/-- The witness of C2: the string `k10KB` of the package's test. -/
theorem SetMaxMemory_rejects_unparsed_witness :
    memoryUnits.Perm memoryUnits ∧ ("KB", KB) ∈ memoryUnits ∧ HasSuffix "k10KB" "KB" = true ∧
      Atoi ((Split "k10KB" "KB").headD "") = none ∧
      New (V := Unit) memoryUnits "k10KB" = (⟨none⟩, some GoError.ErrParameterOfSetMaxMemory) :=
  ⟨List.Perm.refl _, by decide, by decide, by decide,
    (SetMaxMemory_rejects_unparsed memoryUnits (List.Perm.refl _)
      { defaultExpiration := 0, totalMemory := GB, usedMemory := 0, _data := ∅, RWMutex := none }
      "k10KB" "KB" KB (by decide) (by decide) (by decide)).2.1⟩

/-- The counterexample to C2 as stated: `1KB2KB` ends with the unit `KB`, what
is left after stripping that suffix, `1KB2`, is no integer, and yet
`SetMaxMemory` returns true (with a budget of 1024 bytes) and `New` returns no
error. -/
theorem SetMaxMemory_rejects_unparsed_counterexample :
    HasSuffix "1KB2KB" "KB" = true ∧ "1KB2" ++ "KB" = "1KB2KB" ∧ Atoi "1KB2" = none ∧
      SetMaxMemory memoryUnits
          ({ defaultExpiration := 0, totalMemory := GB, usedMemory := 0, _data := ∅,
             RWMutex := none } : cache Unit) "1KB2KB" =
        (true, { defaultExpiration := 0, totalMemory := 1024, usedMemory := 0, _data := ∅,
                 RWMutex := none }) ∧
      (New (V := Unit) memoryUnits "1KB2KB").2 = none := by
  refine ⟨by decide, by decide, by decide, ?_, ?_⟩ <;> rfl

/-- C3: for every string that ends with none of `KB`, `MB`, `GB`,
`SetMaxMemory` returns true and leaves the engine, `totalMemory` included,
unchanged, so `New` succeeds on it with the default budget of one gigabyte,
`1024^3` bytes; and `SetMaxMemory` returns false only for strings that end
with a recognized unit. -/
theorem SetMaxMemory_without_unit (order : List (String × Int))
    (horder : order.Perm memoryUnits) (c : cache V) (size : String) :
    ((∀ p ∈ memoryUnits, HasSuffix size p.1 = false) →
        SetMaxMemory order c size = (true, c) ∧
        New (V := V) order size =
          (⟨some { defaultExpiration := 0, totalMemory := 1024 ^ 3, usedMemory := 0,
                   _data := ∅, RWMutex := none }⟩, none)) ∧
      ((SetMaxMemory order c size).1 = false → ∃ p ∈ memoryUnits, HasSuffix size p.1 = true) := by
  constructor
  · intro h
    refine ⟨SetMaxMemory_no_unit order horder c size h, ?_⟩
    unfold New
    simp only [SetMaxMemory_no_unit order horder _ size h]
    rfl
  · intro hfalse
    by_contra hnone
    have h : ∀ p ∈ memoryUnits, HasSuffix size p.1 = false := by
      intro p hp
      by_contra hs
      exact hnone ⟨p, hp, by simpa using hs⟩
    rw [SetMaxMemory_no_unit order horder c size h] at hfalse
    simp at hfalse

/-- The witness of C3: the bare number `10` keeps the default budget, and the
rejected string `k10KB` ends with a unit. -/
theorem SetMaxMemory_without_unit_witness :
    memoryUnits.Perm memoryUnits ∧ (∀ p ∈ memoryUnits, HasSuffix "10" p.1 = false) ∧
      New (V := Unit) memoryUnits "10" =
        (⟨some { defaultExpiration := 0, totalMemory := 1073741824, usedMemory := 0,
                 _data := ∅, RWMutex := none }⟩, none) ∧
      (SetMaxMemory memoryUnits
          ({ defaultExpiration := 0, totalMemory := GB, usedMemory := 0, _data := ∅,
             RWMutex := none } : cache Unit) "k10KB").1 = false ∧
      ∃ p ∈ memoryUnits, HasSuffix "k10KB" p.1 = true :=
  ⟨List.Perm.refl _, by decide,
    ((SetMaxMemory_without_unit memoryUnits (List.Perm.refl _)
      { defaultExpiration := 0, totalMemory := GB, usedMemory := 0, _data := ∅, RWMutex := none }
      "10").1 (by decide)).2,
    by decide,
    (SetMaxMemory_without_unit memoryUnits (List.Perm.refl _)
      ({ defaultExpiration := 0, totalMemory := GB, usedMemory := 0, _data := ∅,
         RWMutex := none } : cache Unit) "k10KB").2 (by decide)⟩

/-- C4, as amended: on an engine whose lock is allocated and free, for every
key, value and ttl, if `Set(k, v, ttl)` at time `t0` is accepted (`v`
serializes and its estimated size fits the budget) and, when `ttl > 0`, the
deadline `t0 + ttl` is below `2^63` nanoseconds, then `Set` returns, and in
the state it leaves as in every later state that still holds that entry for
`k` under a lock no writer holds, `Get(k)` at a time `t` with `ttl <= 0` or
`t < t0 + ttl` returns `(v, true)` and leaves the state, the table included,
unchanged; with `ttl = 0` at every time. -/
theorem Set_then_Get_live (gob : Option V → Option (List Nat)) (t0 : Int) (c : cache V)
    (m : RWMutex) (key : String) (val : Option V) (ttl : Int) (buf : List Nat)
    (hm : c.RWMutex = some m) (hw : m.w = false) (hr : m.readerCount = 0)
    (henc : gob val = some buf)
    (hfit : toInt64 (c.usedMemory + (buf.length : Int)) ≤ c.totalMemory)
    (hclock : -2 ^ 63 ≤ t0) (hrep : ttl ≤ 0 ∨ t0 + ttl < 2 ^ 63) :
    ∃ c' : cache V, Set gob t0 c key val ttl = .ok c' ∧
      (∀ t : Int, (ttl ≤ 0 ∨ t < t0 + ttl) → Get t c' key = .ok ((val, true), c')) ∧
      ∀ (s : cache V) (ms : RWMutex), s.RWMutex = some ms → ms.w = false →
        s._data.lookup key = c'._data.lookup key →
        ∀ t : Int, (ttl ≤ 0 ∨ t < t0 + ttl) → Get t s key = .ok ((val, true), s) := by
  have hlive : ∀ t : Int, (ttl ≤ 0 ∨ t < t0 + ttl) →
      (if ttl > 0 then toInt64 (t0 + ttl) else 0) = 0 ∨
        t < (if ttl > 0 then toInt64 (t0 + ttl) else 0) := by
    intro t ht
    by_cases hpos : ttl > 0
    · have hlt : t0 + ttl < 2 ^ 63 := by
        rcases hrep with h | h
        · omega
        · exact h
      have ht' : t < t0 + ttl := by
        rcases ht with h | h
        · omega
        · exact h
      rw [if_pos hpos, toInt64_of_range _ (by omega) hlt]
      exact Or.inr ht'
    · rw [if_neg hpos]
      exact Or.inl rfl
  have hlook : Finmap.lookup key
      (c._data.insert key ⟨val, if ttl > 0 then toInt64 (t0 + ttl) else 0⟩) =
      some ⟨val, if ttl > 0 then toInt64 (t0 + ttl) else 0⟩ := Finmap.lookup_insert _
  refine ⟨{ c with
      _data := c._data.insert key ⟨val, if ttl > 0 then toInt64 (t0 + ttl) else 0⟩ },
    Set_accepted gob t0 c m hm hw hr key val ttl buf henc hfit, ?_, ?_⟩
  · intro t ht
    exact Get_live t
      { c with _data := c._data.insert key ⟨val, if ttl > 0 then toInt64 (t0 + ttl) else 0⟩ }
      m hm hw key ⟨val, if ttl > 0 then toInt64 (t0 + ttl) else 0⟩ hlook (hlive t ht)
  · intro s ms hms hws hs t ht
    exact Get_live t s ms hms hws key ⟨val, if ttl > 0 then toInt64 (t0 + ttl) else 0⟩
      (hs.trans hlook) (hlive t ht)

/-- The witness of C4: the write of the package's test, on an engine with a
budget of 1024 bytes and a free lock. -/
theorem Set_then_Get_live_witness :
    (unlockedEngine 1024 ∅).RWMutex = some ⟨false, 0⟩ ∧
      byteEncoder (some "aaaaaaaaaa") = some ("aaaaaaaaaa".data.map Char.toNat) ∧
      toInt64 ((unlockedEngine 1024 ∅).usedMemory +
          ((("aaaaaaaaaa".data.map Char.toNat).length : Nat) : Int)) ≤
        (unlockedEngine 1024 ∅).totalMemory ∧
      (1700000000000000000 : Int) + 1000000000000 < 2 ^ 63 ∧
      ∃ c' : cache String,
        Set byteEncoder 1700000000000000000 (unlockedEngine 1024 ∅) "test" (some "aaaaaaaaaa")
            1000000000000 = .ok c' ∧
          ∀ t : Int, ((1000000000000 : Int) ≤ 0 ∨ t < 1700000000000000000 + 1000000000000) →
            Get t c' "test" = .ok ((some "aaaaaaaaaa", true), c') :=
  ⟨rfl, rfl, by decide, by decide,
    (Set_then_Get_live byteEncoder 1700000000000000000 (unlockedEngine 1024 ∅) ⟨false, 0⟩ "test"
      (some "aaaaaaaaaa") 1000000000000 ("aaaaaaaaaa".data.map Char.toNat) rfl rfl rfl rfl
      (by decide) (by decide) (Or.inr (by decide))).imp (fun _ h => ⟨h.1, h.2.1⟩)⟩

/-- The counterexample to C4 as stated: a `Set` accepted at
`t0 = 1700000000000000000` with `ttl = 9000000000000000000` stores the
wrapped deadline `-7746744073709551616`, and the `Get` one nanosecond later,
well before `t0 + ttl`, does not return the value and empties the table. -/
theorem Set_then_Get_live_counterexample :
    Set byteEncoder 1700000000000000000 (unlockedEngine 1024 ∅) "test" (some "aaaaaaaaaa")
        9000000000000000000 =
      .ok (unlockedEngine 1024
        (Finmap.singleton "test" ⟨some "aaaaaaaaaa", -7746744073709551616⟩)) ∧
    (1700000000000000001 : Int) < 1700000000000000000 + 9000000000000000000 ∧
    Get 1700000000000000001
        (unlockedEngine 1024 (Finmap.singleton "test" ⟨some "aaaaaaaaaa", -7746744073709551616⟩))
        "test" =
      .ok ((none, true), unlockedEngine 1024 ∅) := by
  refine ⟨?_, by decide, ?_⟩ <;> rfl

/-- C5, evaluated where the code departs from it: one second after a `Set`
with a ttl of one second, `Get` removes the entry, as claimed, but returns
`ok = true` with a nil value, where the claim says not-found. -/
theorem Get_expired_reports_found :
    Set byteEncoder 1700000000000000000 (unlockedEngine 1024 ∅) "test" (some "aaaaaaaaaa")
        1000000000 =
      .ok (unlockedEngine 1024
        (Finmap.singleton "test" ⟨some "aaaaaaaaaa", 1700000001000000000⟩)) ∧
    Get 1700000001000000000
        (unlockedEngine 1024 (Finmap.singleton "test" ⟨some "aaaaaaaaaa", 1700000001000000000⟩))
        "test" =
      .ok ((none, true), unlockedEngine 1024 ∅) := by
  constructor <;> rfl

/-- C6, evaluated at the package's own test: on the engine of `New("1KB")`
the key `test` is absent and the `Set` of a string of 2048 bytes is rejected
and leaves the engine as it was, as claimed, but the `Exists("test")` that
should then be false stops at `c.RLock()` with a nil pointer dereference.
The frame part of the claim holds in every state: a `Set` whose estimated
size added to `usedMemory` (the 64-bit sum the code computes) exceeds
`totalMemory` returns and leaves every field of the engine unchanged. -/
theorem Set_over_budget_then_Exists_stops :
    (New (V := String) memoryUnits "1KB" = (⟨some (freshEngine 1024)⟩, none) ∧
      (freshEngine 1024)._data.lookup "test" = none ∧
      Set byteEncoder 1700000000000000000 (freshEngine 1024) "test"
          (some (String.mk (List.replicate 2048 '1'))) 1000000000000 =
        .ok (freshEngine 1024) ∧
      Exists (freshEngine 1024) "test" = .error .nilDereference) ∧
    ∀ (gob : Option String → Option (List Nat)) (now : Int) (c : cache String) (key : String)
      (val : Option String) (expire : Int) (buf : List Nat),
      gob val = some buf → c.totalMemory < toInt64 (c.usedMemory + (buf.length : Int)) →
      Set gob now c key val expire = .ok c := by
  refine ⟨⟨rfl, rfl, ?_, rfl⟩, fun gob now c key val expire buf henc hover =>
    Set_rejected gob now c key val expire buf henc hover⟩
  refine Set_rejected byteEncoder 1700000000000000000 (freshEngine 1024) "test"
    (some (String.mk (List.replicate 2048 '1'))) 1000000000000
    ((List.replicate 2048 '1').map Char.toNat) rfl ?_
  rw [List.length_map, List.length_replicate]
  decide

/-- C7, evaluated at the package's own test: `New("1KB")` returns an engine
whose lock pointer is nil, and `Set("test", "aaaaaaaaaa", 1000s)` on it, being
within budget, stops at `c.Lock()` with a nil pointer dereference; so does the
`Exists("test")` that the test calls next. -/
theorem Set_after_New_stops :
    New (V := String) memoryUnits "1KB" = (⟨some (freshEngine 1024)⟩, none) ∧
      Set byteEncoder 1700000000000000000 (freshEngine 1024) "test" (some "aaaaaaaaaa")
          1000000000000 = .error .nilDereference ∧
      Exists (freshEngine 1024) "test" = .error .nilDereference := by
  refine ⟨?_, ?_, ?_⟩ <;> rfl

/-- C8, evaluated on the engine of `New("1KB")`: `Del` of a key, which is
absent, does not return false but stops at `c.RLock()` with a nil pointer
dereference. -/
theorem Del_after_New_stops :
    New (V := String) memoryUnits "1KB" = (⟨some (freshEngine 1024)⟩, none) ∧
      Del (freshEngine 1024) "test" = .error .nilDereference := by
  constructor <;> rfl

/-- C9, evaluated on the engine of `New("1KB")`: `Flush` does not return true
but stops at `c.RLock()` with a nil pointer dereference. -/
theorem Flush_after_New_stops :
    New (V := String) memoryUnits "1KB" = (⟨some (freshEngine 1024)⟩, none) ∧
      Flush (freshEngine 1024) = .error .nilDereference := by
  constructor <;> rfl

/-- C10, evaluated on the engine of `New("1KB")`: `Exists` of a key, which is
absent, does not return false but stops at `c.RLock()` with a nil pointer
dereference. -/
theorem Exists_after_New_stops :
    New (V := String) memoryUnits "1KB" = (⟨some (freshEngine 1024)⟩, none) ∧
      Exists (freshEngine 1024) "absent" = .error .nilDereference := by
  constructor <;> rfl

/-- C11: `Keys()` returns the number of distinct keys in the table (a Go map
holds fewer than `2^63` of them), each entry counting for one whatever its
expiry and whatever the time, so those that are logically expired but not yet
removed are counted; it takes the engine and gives back a number only, so the
state is not changed; and on a cache freshly returned by a successful `New`
it returns 0. -/
theorem Keys_counts_entries (c : cache V) (hlen : c._data.keys.card < 2 ^ 63) :
    Keys c = (c._data.keys.card : Int) ∧
      (∀ (key : String) (d : value V), c._data.lookup key = some d →
        Keys c = Keys { c with _data := c._data.erase key } + 1) ∧
      (∀ (order : List (String × Int)) (size : String) (c0 : cache V),
        (New (V := V) order size).1.cache = some c0 → Keys c0 = 0) := by
  refine ⟨Keys_eq_card c hlen, fun key d hl => Keys_erase_entry c key d hl hlen, ?_⟩
  intro order size c0 h0
  obtain ⟨_, _, hd⟩ := New_lock_nil order size c0 h0
  simp only [Keys, hd, Finmap.keys_empty, Finset.card_empty]
  rfl

/-- The witness of C11: a table whose one entry expired long ago has one key,
and the engine of `New("1KB")` has none. -/
theorem Keys_counts_entries_witness :
    (unlockedEngine 1024 (Finmap.singleton "test" ⟨some "aaaaaaaaaa", 1⟩))._data.keys.card
        < 2 ^ 63 ∧
      Keys (unlockedEngine 1024 (Finmap.singleton "test" ⟨some "aaaaaaaaaa", 1⟩)) = 1 ∧
      Keys (freshEngine 1024) = 0 :=
  ⟨by decide,
    (Keys_counts_entries
      (unlockedEngine 1024 (Finmap.singleton "test" ⟨some "aaaaaaaaaa", 1⟩)) (by decide)).1,
    (Keys_counts_entries
      (unlockedEngine 1024 (Finmap.singleton "test" ⟨some "aaaaaaaaaa", 1⟩)) (by decide)).2.2
      memoryUnits "1KB" (freshEngine 1024) rfl⟩

/-- C12, evaluated on the engine of `New("1KB")`: the key `test` is absent,
`Keys()` is 0, and the `Set("test", "aaaaaaaaaa", 0)` of the package's test,
which is within budget, stops at `c.Lock()` with a nil pointer dereference
instead of adding the entry and raising `Keys()` to 1. Where the lock is
allocated and free the claim holds: an accepted `Set` makes the entry exactly
the value and the expiry computed from the ttl, and `Keys()` stays as it is
for a key that was present and grows by one for a key that was absent. -/
theorem Set_absent_key_after_New_stops :
    (New (V := String) memoryUnits "1KB" = (⟨some (freshEngine 1024)⟩, none) ∧
      (freshEngine 1024)._data.lookup "test" = none ∧ Keys (freshEngine 1024) = 0 ∧
      Set byteEncoder 1700000000000000000 (freshEngine 1024) "test" (some "aaaaaaaaaa")
          DefaultExpiration = .error .nilDereference) ∧
    ∀ (now : Int) (c : cache String) (m : RWMutex) (key : String) (val : Option String)
      (expire : Int) (buf : List Nat),
      c.RWMutex = some m → m.w = false → m.readerCount = 0 → byteEncoder val = some buf →
      toInt64 (c.usedMemory + (buf.length : Int)) ≤ c.totalMemory →
      c._data.keys.card + 1 < 2 ^ 63 →
      ∃ c' : cache String, Set byteEncoder now c key val expire = .ok c' ∧
        c'._data.lookup key = some ⟨val, if expire > 0 then toInt64 (now + expire) else 0⟩ ∧
        Keys c' = Keys c + (if (c._data.lookup key).isSome then 0 else 1) := by
  refine ⟨⟨rfl, rfl, rfl, rfl⟩, ?_⟩
  intro now c m key val expire buf hm hw hr henc hfit hlen
  refine ⟨_, Set_accepted byteEncoder now c m hm hw hr key val expire buf henc hfit,
    Finmap.lookup_insert _, ?_⟩
  cases hl : c._data.lookup key with
  | none =>
    rw [Keys_insert_absent c key _ hl hlen]
    rfl
  | some d =>
    rw [Keys_insert_present c key _ d hl]
    simp

/-- The witness of the second half of C12: on an engine with a free lock the
write of the package's test creates the entry and raises `Keys()` from 0 to 1. -/
theorem Set_absent_key_after_New_stops_witness :
    ∃ c' : cache String,
      Set byteEncoder 1700000000000000000 (unlockedEngine 1024 ∅) "test" (some "aaaaaaaaaa")
          DefaultExpiration = .ok c' ∧
        c'._data.lookup "test" = some ⟨some "aaaaaaaaaa", 0⟩ ∧
        Keys c' = Keys (unlockedEngine 1024 ∅) + 1 :=
  Set_absent_key_after_New_stops.2 1700000000000000000 (unlockedEngine 1024 ∅) ⟨false, 0⟩ "test"
    (some "aaaaaaaaaa") DefaultExpiration ("aaaaaaaaaa".data.map Char.toNat) rfl rfl rfl rfl
    (by decide) (by decide)

/-- C13: capacity is enforced by rejecting writes only. In every state a
`Set(k, v, ttl)` that returns, accepted or rejected, leaves the entry of every
key other than `k` as it was and removes no key at all; one that does not
return has stopped at `c.Lock()`, before the table is touched; and
`SetMaxMemory(size)`, whatever budget it sets and in whatever order it visits
the units, leaves the whole table unchanged. -/
theorem Set_and_SetMaxMemory_keep_entries (gob : Option V → Option (List Nat)) (now : Int)
    (c : cache V) (key : String) (val : Option V) (expire : Int) :
    (∀ c' : cache V, Set gob now c key val expire = .ok c' →
        (∀ k' : String, k' ≠ key → c'._data.lookup k' = c._data.lookup k') ∧
        (∀ k' : String, k' ∈ c._data → k' ∈ c'._data)) ∧
      (∀ e : Fault, Set gob now c key val expire = .error e → Lock c = .error e) ∧
      (∀ (units : List (String × Int)) (size : String),
        (SetMaxMemory units c size).2._data = c._data) := by
  refine ⟨?_, fun e h => Set_error_at_Lock gob now c key val expire e h,
    fun units size => (SetMaxMemoryLoop_fields size units c).2.2.1⟩
  intro c' h
  constructor
  · intro k' hk
    rcases Set_returns gob now c c' key val expire h with e | ⟨_, _, e⟩
    · rw [e]
    · rw [e]
      exact Finmap.lookup_insert_of_ne _ hk
  · intro k' hk
    rcases Set_returns gob now c c' key val expire h with e | ⟨_, _, e⟩
    · rw [e]; exact hk
    · rw [e]
      exact Finmap.mem_insert.2 (Or.inr hk)

/-- The witness of C13: with a budget of 1024 bytes and the key `a` in the
table, writing the key `b` keeps the entry of `a`, and lowering the budget to
nothing keeps the table. -/
theorem Set_and_SetMaxMemory_keep_entries_witness :
    Set byteEncoder 1700000000000000000
        (unlockedEngine 1024 (Finmap.singleton "a" ⟨some "aaaaaaaaaa", 0⟩)) "b" (some "bb") 0 =
      .ok (unlockedEngine 1024
        ((Finmap.singleton "a" ⟨some "aaaaaaaaaa", 0⟩).insert "b" ⟨some "bb", 0⟩)) ∧
    (unlockedEngine 1024
        ((Finmap.singleton "a" ⟨some "aaaaaaaaaa", 0⟩).insert "b" ⟨some "bb", 0⟩))._data.lookup "a" =
      (unlockedEngine 1024 (Finmap.singleton "a" ⟨some "aaaaaaaaaa", 0⟩))._data.lookup "a" ∧
    (SetMaxMemory memoryUnits
        (unlockedEngine 1024 (Finmap.singleton "a" ⟨some "aaaaaaaaaa", 0⟩)) "0KB").2._data =
      (unlockedEngine 1024 (Finmap.singleton "a" ⟨some "aaaaaaaaaa", 0⟩))._data :=
  ⟨rfl,
    ((Set_and_SetMaxMemory_keep_entries byteEncoder 1700000000000000000
      (unlockedEngine 1024 (Finmap.singleton "a" ⟨some "aaaaaaaaaa", 0⟩))
      "b" (some "bb") 0).1
      (unlockedEngine 1024
        ((Finmap.singleton "a" ⟨some "aaaaaaaaaa", 0⟩).insert "b" ⟨some "bb", 0⟩))
      (by rfl)).1 "a" (by decide),
    (Set_and_SetMaxMemory_keep_entries byteEncoder 1700000000000000000
      (unlockedEngine 1024 (Finmap.singleton "a" ⟨some "aaaaaaaaaa", 0⟩))
      "b" (some "bb") 0).2.2 memoryUnits "0KB"⟩

/-- C14, evaluated on the engine of `New("1KB")`: the embedded lock pointer is
nil in the value `New` returns, and each of `Set` (within budget), `Get`,
`Del`, `Exists` and `Flush` stops with a nil pointer dereference when it
reaches for the lock. -/
theorem Operations_after_New_stop :
    New (V := String) memoryUnits "1KB" = (⟨some (freshEngine 1024)⟩, none) ∧
      (freshEngine 1024).RWMutex = none ∧
      Set byteEncoder 1700000000000000000 (freshEngine 1024) "test" (some "aaaaaaaaaa")
          DefaultExpiration = .error .nilDereference ∧
      Get 1700000000000000000 (freshEngine 1024) "test" = .error .nilDereference ∧
      Del (freshEngine 1024) "test" = .error .nilDereference ∧
      Exists (freshEngine 1024) "test" = .error .nilDereference ∧
      Flush (freshEngine 1024) = .error .nilDereference := by
  refine ⟨?_, ?_, ?_, ?_, ?_, ?_, ?_⟩ <;> rfl

/-- C15, evaluated on the engine of `New("1KB")`: it is a state the package
can be in, `usedMemory` is 0, the value serializes to 10 bytes, which is
within the budget of 1024, and yet `Set` does not store the entry: it stops
at `c.Lock()` with a nil pointer dereference. The rest of the claim holds:
in every state the package can be in `usedMemory` is 0 (and the lock pointer
nil). -/
theorem Set_within_budget_after_New_not_stored :
    (Reachable byteEncoder (freshEngine 1024) ∧
      (freshEngine 1024).usedMemory = 0 ∧
      getBytesLen byteEncoder (some "aaaaaaaaaa") = some 10 ∧
      (10 : Int) ≤ (freshEngine 1024).totalMemory ∧
      Set byteEncoder 1700000000000000000 (freshEngine 1024) "test" (some "aaaaaaaaaa")
          1000000000000 = .error .nilDereference) ∧
    ∀ c : cache String, Reachable byteEncoder c → c.usedMemory = 0 ∧ c.RWMutex = none := by
  refine ⟨⟨Reachable.new memoryUnits "1KB" _ (List.Perm.refl _) rfl, rfl, rfl, by decide, rfl⟩,
    ?_⟩
  intro c hc
  obtain ⟨h1, h2, _⟩ := Reachable_invariant byteEncoder c hc
  exact ⟨h1, h2⟩

/-- C16, evaluated on the engine of `New("1KB")`: the key is absent, and
`Get` does not return `(nil, false)` but stops at `c.RLock()` with a nil
pointer dereference. Of every `Get` that returns the claim holds: an absent
key gives `(nil, false)` and the state unchanged, a live entry leaves the
state unchanged, and all other keys keep their entries. -/
theorem Get_absent_after_New_stops :
    (New (V := String) memoryUnits "1KB" = (⟨some (freshEngine 1024)⟩, none) ∧
      (freshEngine 1024)._data.lookup "absent" = none ∧
      Get 1700000000000000000 (freshEngine 1024) "absent" = .error .nilDereference) ∧
    ∀ (now : Int) (c c' : cache String) (key : String) (r : Option String × Bool),
      Get now c key = .ok (r, c') →
      (c._data.lookup key = none → r = (none, false) ∧ c' = c) ∧
      (∀ d : value String, c._data.lookup key = some d →
        (d.expire = 0 ∨ now < d.expire) → c' = c) ∧
      ∀ k' : String, k' ≠ key → c'._data.lookup k' = c._data.lookup k' := by
  refine ⟨⟨rfl, rfl, rfl⟩, ?_⟩
  intro now c c' key r h
  refine ⟨?_, ?_, Get_other_keys now c c' key r h⟩
  · intro habs
    rcases Get_ok_cases now c c' key r h with
      ⟨_, hr, hc⟩ | ⟨d, hl, _, _, _⟩ | ⟨d, hl, _, _, _, _⟩
    · exact ⟨hr, hc⟩
    · rw [habs] at hl; cases hl
    · rw [habs] at hl; cases hl
  · intro d hl hlive
    rcases Get_ok_cases now c c' key r h with
      ⟨habs, _, _⟩ | ⟨d', _, _, _, hc⟩ | ⟨d', hl', h0, hexp, _, _⟩
    · rw [hl] at habs; cases habs
    · exact hc
    · rw [hl] at hl'
      cases hl'
      rcases hlive with e | e
      · exact absurd e h0
      · omega

/-- The witness of the second half of C16: on an engine with a free lock a
`Get` that finds the entry of `a` expired erases it and leaves the entry of
`b` as it was. -/
theorem Get_absent_after_New_stops_witness :
    Get 1700000000000000000
        (unlockedEngine 1024
          ((Finmap.singleton "b" ⟨some "bb", 0⟩).insert "a" ⟨some "aaaaaaaaaa", 1⟩)) "a" =
      .ok ((none, true), unlockedEngine 1024 (Finmap.singleton "b" ⟨some "bb", 0⟩)) ∧
    (unlockedEngine 1024 (Finmap.singleton "b" ⟨some "bb", 0⟩))._data.lookup "b" =
      (unlockedEngine 1024
        ((Finmap.singleton "b" ⟨some "bb", 0⟩).insert "a" ⟨some "aaaaaaaaaa", 1⟩))._data.lookup "b" :=
  ⟨rfl,
    (Get_absent_after_New_stops.2 1700000000000000000
      (unlockedEngine 1024
        ((Finmap.singleton "b" ⟨some "bb", 0⟩).insert "a" ⟨some "aaaaaaaaaa", 1⟩))
      (unlockedEngine 1024 (Finmap.singleton "b" ⟨some "bb", 0⟩)) "a" (none, true)
      (by rfl)).2.2 "b" (by decide)⟩

/-- C17: for every input string at most one of `KB`, `MB`, `GB` is a suffix,
so for every two orders in which `range` may visit `memoryUnits` the boolean
`SetMaxMemory` returns and the engine it leaves, `totalMemory` included, are
the same. -/
theorem SetMaxMemory_order_irrelevant (o1 o2 : List (String × Int))
    (h1 : o1.Perm memoryUnits) (h2 : o2.Perm memoryUnits) (c : cache V) (size : String) :
    (∀ p ∈ memoryUnits, ∀ q ∈ memoryUnits,
        HasSuffix size p.1 = true → HasSuffix size q.1 = true → p = q) ∧
      SetMaxMemory o1 c size = SetMaxMemory o2 c size := by
  refine ⟨fun p hp q hq hsp hsq => unit_suffix_unique size p q hp hq hsp hsq, ?_⟩
  rcases SetMaxMemory_cases o1 h1 c size with
    ⟨hnone, e⟩ | ⟨k, v, hu, hsuf, hparse, e⟩ | ⟨k, v, i, hu, hsuf, hparse, e⟩
  · rw [e, SetMaxMemory_no_unit o2 h2 c size hnone]
  · rw [e, SetMaxMemory_parse_error o2 h2 c size k v hu hsuf hparse]
  · rw [e, SetMaxMemory_parsed o2 h2 c size k v i hu hsuf hparse]

/-- The witness of C17: the table order and its reverse on `10MB`. -/
theorem SetMaxMemory_order_irrelevant_witness :
    memoryUnits.Perm memoryUnits ∧ memoryUnits.reverse.Perm memoryUnits ∧
      SetMaxMemory memoryUnits (freshEngine 1024) "10MB" =
        SetMaxMemory memoryUnits.reverse (freshEngine 1024) "10MB" ∧
      SetMaxMemory memoryUnits (freshEngine 1024) "10MB" = (true, freshEngine 10485760) :=
  ⟨List.Perm.refl _, List.reverse_perm _,
    (SetMaxMemory_order_irrelevant memoryUnits memoryUnits.reverse (List.Perm.refl _)
      (List.reverse_perm _) (freshEngine 1024) "10MB").2,
    rfl⟩

/-- C18: for every engine state and every string on which `SetMaxMemory`
returns false, in whatever order it visits the units, `totalMemory` and every
other field of the engine are exactly what they were before the call. -/
theorem SetMaxMemory_failure_atomic (order : List (String × Int))
    (horder : order.Perm memoryUnits) (c : cache V) (size : String)
    (hfalse : (SetMaxMemory order c size).1 = false) :
    (SetMaxMemory order c size).2 = c := by
  rcases SetMaxMemory_cases order horder c size with
    ⟨_, e⟩ | ⟨k, v, _, _, _, e⟩ | ⟨k, v, i, _, _, _, e⟩
  · rw [e]
  · rw [e]
  · rw [e] at hfalse
    simp at hfalse

/-- The witness of C18: the string `k10KB` on an engine with a table. -/
theorem SetMaxMemory_failure_atomic_witness :
    memoryUnits.Perm memoryUnits ∧
      (SetMaxMemory memoryUnits
        (unlockedEngine 1024 (Finmap.singleton "a" ⟨some "aaaaaaaaaa", 0⟩)) "k10KB").1 = false ∧
      (SetMaxMemory memoryUnits
        (unlockedEngine 1024 (Finmap.singleton "a" ⟨some "aaaaaaaaaa", 0⟩)) "k10KB").2 =
        unlockedEngine 1024 (Finmap.singleton "a" ⟨some "aaaaaaaaaa", 0⟩) :=
  ⟨List.Perm.refl _, by decide,
    SetMaxMemory_failure_atomic memoryUnits (List.Perm.refl _)
      (unlockedEngine 1024 (Finmap.singleton "a" ⟨some "aaaaaaaaaa", 0⟩)) "k10KB" (by decide)⟩

/-- C19: `Get` never returns the payload of an expired entry. For every
state, key and time `now` such that the key's entry has `expireAt != 0` and
`now >= expireAt`: when `Get(k)` returns, the value component it returns is
nil, not the stored value, the entry is gone, and a second `Get(k)` right
afterwards, at whatever time, returns `(nil, false)` and leaves the state as
it is; and when `Get(k)` does not return it has stopped at `c.RLock()`,
before it read the entry. -/
theorem Get_expired_value_nil (now : Int) (c : cache V) (key : String) (d : value V)
    (hl : c._data.lookup key = some d) (h0 : d.expire ≠ 0) (hexp : d.expire ≤ now) :
    (∀ (r : Option V × Bool) (c' : cache V), Get now c key = .ok (r, c') →
        r.1 = none ∧ c'._data.lookup key = none ∧
        ∀ now' : Int, Get now' c' key = .ok ((none, false), c')) ∧
      (∀ e : Fault, Get now c key = .error e → RLock c = .error e) := by
  refine ⟨?_, fun e h => Get_error_at_RLock now c key e h⟩
  intro r c' h
  obtain ⟨m, hm, hw⟩ := Get_returns now c key _ h
  rcases Get_ok_cases now c c' key r h with
    ⟨habs, _, _⟩ | ⟨d', hl', hlive, _, _⟩ | ⟨d', _, _, _, hr, hc⟩
  · rw [hl] at habs
    cases habs
  · rw [hl] at hl'
    cases hl'
    rcases hlive with e | e
    · exact absurd e h0
    · omega
  · have hgone : c'._data.lookup key = none := by
      rw [hc]
      exact Finmap.lookup_erase key c._data
    have hm' : c'.RWMutex = some m := by rw [hc]; exact hm
    exact ⟨by rw [hr], hgone, fun now' => Get_absent now' c' m hm' hw key hgone⟩

/-- The witness of C19: an entry that expired at `1700000001000000000`, read
at that very time. -/
theorem Get_expired_value_nil_witness :
    (unlockedEngine 1024
        (Finmap.singleton "test" ⟨some "aaaaaaaaaa", 1700000001000000000⟩))._data.lookup "test" =
      some ⟨some "aaaaaaaaaa", 1700000001000000000⟩ ∧
    (1700000001000000000 : Int) ≠ 0 ∧
    Get 1700000001000000000
        (unlockedEngine 1024 (Finmap.singleton "test" ⟨some "aaaaaaaaaa", 1700000001000000000⟩))
        "test" = .ok ((none, true), unlockedEngine 1024 ∅) ∧
    ∀ now' : Int, Get now' (unlockedEngine 1024 ∅) "test" =
      .ok ((none, false), unlockedEngine 1024 ∅) :=
  ⟨rfl, by decide, rfl,
    ((Get_expired_value_nil 1700000001000000000
      (unlockedEngine 1024 (Finmap.singleton "test" ⟨some "aaaaaaaaaa", 1700000001000000000⟩))
      "test" ⟨some "aaaaaaaaaa", 1700000001000000000⟩
      (by rfl) (by decide) (by decide)).1 (none, true) (unlockedEngine 1024 ∅) (by rfl)).2.2⟩

/-- C20: the magnitude is read as a signed integer and no lower bound is
checked: for every `n >= 1` and unit whose product `-n * unitBytes` fits 64
bits, `SetMaxMemory("-" ++ n ++ unit)` returns true, in whatever order it
visits the units, and sets `totalMemory` to that negative value; on an engine
whose `usedMemory` is 0, as it is in every engine `New` returns, every `Set`
is then rejected, the estimated size (the length of a buffer, below `2^63`)
being non-negative: it returns and leaves the engine as it is, so the table
can never grow. -/
theorem SetMaxMemory_negative_budget (order : List (String × Int))
    (horder : order.Perm memoryUnits) (gob : Option V → Option (List Nat)) (c : cache V)
    (n : Nat) (k : String) (v : Int) (hu : (k, v) ∈ memoryUnits) (hn : 1 ≤ n)
    (hfit : -2 ^ 63 ≤ -((n : Int) * v)) (hused : c.usedMemory = 0) :
    ∃ c' : cache V, SetMaxMemory order c ("-" ++ toString n ++ k) = (true, c') ∧
      c' = { c with totalMemory := -((n : Int) * v) } ∧ c'.totalMemory < 0 ∧
      ∀ (now : Int) (key : String) (val : Option V) (expire : Int),
        (∀ buf, gob val = some buf → buf.length < 2 ^ 63) →
        Set gob now c' key val expire = .ok c' := by
  have hv : (1024 : Int) ≤ v := by
    rcases mem_memoryUnits (k, v) hu with e | e | e <;>
      simp only [Prod.mk.injEq] at e <;> rw [e.2] <;> decide
  have hn' : (1 : Int) ≤ (n : Int) := by exact_mod_cast hn
  have hprod : (n : Int) ≤ (n : Int) * v := by nlinarith
  have hpos : (0 : Int) < (n : Int) * v := by nlinarith
  have hparse : Atoi ("-" ++ toString n) = some (-(n : Int)) := by
    rw [← toString_neg n hn]
    exact Atoi_toString_int _ (by omega) (by omega)
  have hset := SetMaxMemory_of_Atoi order horder c ("-" ++ toString n) k v (-(n : Int)) hu hparse
  have hval : toInt64 (-(n : Int) * v) = -((n : Int) * v) := by
    rw [neg_mul]
    exact toInt64_of_range _ hfit (by omega)
  rw [hval] at hset
  refine ⟨{ c with totalMemory := -((n : Int) * v) }, hset, rfl, ?_, ?_⟩
  · show -((n : Int) * v) < 0
    omega
  · intro now key val expire hbuf
    cases henc : gob val with
    | none => exact Set_unencodable gob now _ key val expire henc
    | some buf =>
      refine Set_rejected gob now _ key val expire buf henc ?_
      have hb : ((buf.length : Nat) : Int) < 2 ^ 63 := by exact_mod_cast hbuf buf henc
      show -((n : Int) * v) < toInt64 (c.usedMemory + (buf.length : Int))
      rw [hused, zero_add, toInt64_of_range _ (by omega) hb]
      omega

/-- The witness of C20: `-1KB` on the engine of `New("1KB")`, then the write
of the package's test. -/
theorem SetMaxMemory_negative_budget_witness :
    memoryUnits.Perm memoryUnits ∧ ("KB", KB) ∈ memoryUnits ∧
      (-2 ^ 63 : Int) ≤ -(((1 : Nat) : Int) * KB) ∧ (freshEngine 1024).usedMemory = 0 ∧
      SetMaxMemory memoryUnits (freshEngine 1024) "-1KB" = (true, freshEngine (-1024)) ∧
      Set byteEncoder 1700000000000000000 (freshEngine (-1024)) "test" (some "aaaaaaaaaa")
          1000000000000 = .ok (freshEngine (-1024)) := by
  obtain ⟨c', h1, h2, _, h4⟩ :=
    SetMaxMemory_negative_budget memoryUnits (List.Perm.refl _) byteEncoder (freshEngine 1024)
      1 "KB" KB (by decide) (by decide) (by decide) rfl
  have hc : c' = freshEngine (-1024) := h2
  subst hc
  refine ⟨List.Perm.refl _, by decide, by decide, rfl, h1, ?_⟩
  refine h4 1700000000000000000 "test" (some "aaaaaaaaaa") 1000000000000 ?_
  intro buf hb
  have e : buf = "aaaaaaaaaa".data.map Char.toNat := (Option.some.inj hb).symm
  subst e
  decide

end MemoryCache
